import Mathlib

/-!
Verification of the lift-compiler front end: a shallow embedding of the
recursive-descent parser (`src/ast/parser.rs`), the AST node model
(`src/ast/mod.rs`) and the tree-walking evaluator (`src/ast/solver.rs`),
together with theorems settling the specification claims.

Modelling conventions:

* Rust `f64` values are modelled as `ℚ`.  Every numeric computation appearing
  in the claims is exact integer arithmetic, which IEEE double reproduces
  exactly, so the rational model is faithful on the claimed behaviours.
  (`/` on `ℚ` returns 0 for a zero divisor where IEEE gives inf/NaN; no claim
  exercises a zero divisor.)
* Rust `HashMap` (scopes, function table) is modelled as an association list
  where `insert` conses in front; first-match lookup then reproduces the
  observable HashMap behaviour (insert overwrites, lookup finds the latest).
* A Rust panic (`unwrap` on `None`, a non-exhaustive `match`, `todo!()`) is
  the distinguished outcome `panic`.  Possibly diverging recursion (both the
  parser's token loops and the evaluator's function calls) is driven by a
  fuel parameter; exhaustion is the distinguished outcome `nofuel`.
* The diagnostics collector is write-only in the source (the parser only
  appends to it and never reads it back), so it is dropped from the state;
  `consume_expected` behaves exactly like `consume` apart from the report.
* The `Vec<Scope>` scope stack (innermost last, lookup iterates `.rev()`) is
  modelled as a list with the innermost scope first, so lookup walks the list
  front to back, `enter_scope` conses and `leave_scope` takes the tail.
-/

set_option linter.unusedVariables false

namespace LiftCompiler

/-! ## Tokens

A classified lexical token (kind plus the span's literal text, the only span
component the parser and solver read).  The lexer is external; claims start
from token streams.  `other` stands for every remaining kind of the closed
set (string literals, the extended operator symbols, the bad-token kind):
the parser code under verification treats all of them uniformly (they are
neither statement keywords, nor expression openers, nor one of the four
arithmetic binary-operator tokens of `ASTBinaryOperatorKind`). -/

inductive TokenKind where
  | integer (i : Int)
  | floating (q : ℚ)
  | identifier
  | plus
  | minus
  | astrisk
  | slash
  | leftParen
  | rightParen
  | leftBrace
  | rightBrace
  | comma
  | equal
  | letKw
  | returnKw
  | funcKw
  | ifKw
  | elseKw
  | tilde
  | exclemationMark
  | whitespace
  | semiColon
  | eof
  | other
deriving DecidableEq, Repr

structure Token where
  kind : TokenKind
  literal : String
deriving DecidableEq, Repr

/-- The `Parser::new` input filter: whitespace and semicolon tokens are
removed before the parser sees the stream (`parser.rs` lines 48-54). -/
def filterTokens (tokens : List Token) : List Token :=
  tokens.filter fun t => t.kind ≠ TokenKind.whitespace ∧ t.kind ≠ TokenKind.semiColon

/-! ## AST model (`mod.rs`)

`ASTBinaryOperatorKind` and its parse-time `precedence` are exactly the four
arithmetic kinds of `mod.rs` (lines 419-441).  The unary kinds are the three
built by `parser.rs` (`parse_unary_operator`, lines 354-368).  The
statement/expression variants are the union of the variants of `mod.rs` and
the nodes `parser.rs` constructs (`assignment`, `unary`, `conditional`,
`compound`); the evaluator has no visiting code for the latter group, which
the embedding renders as `panic` (see `visitStatement`/`visitExpression`). -/

inductive ASTBinaryOperatorKind where
  | plus
  | minus
  | multiply
  | divide
deriving DecidableEq, Repr

/-- Parse-time precedence table of `mod.rs` lines 433-440. -/
def ASTBinaryOperatorKind.precedence : ASTBinaryOperatorKind → Nat
  | .plus => 1
  | .minus => 1
  | .multiply => 2
  | .divide => 2

inductive ASTUnaryOperatorKind where
  | bitwiseNot
  | logicNot
  | minus
deriving DecidableEq, Repr

mutual
inductive ASTExpression where
  | integerLiteral (i : Int)
  | floatingLiteral (q : ℚ)
  | stringLiteral (s : String)
  | var (identifier : String)
  | binary (op : ASTBinaryOperatorKind) (left right : ASTExpression)
  | unary (op : ASTUnaryOperatorKind) (expr : ASTExpression)
  | parenthesized (expr : ASTExpression)
  | functionCall (identifier : String) (arguments : List ASTExpression)
  | assignment (identifier : String) (expr : ASTExpression)
  | error

inductive ASTStatement where
  | expression (expr : ASTExpression)
  | letStatement (identifier : String) (initializer : ASTExpression)
  | returnStatement (expr : ASTExpression)
  | functionStatement (identifier : String) (arguments : List ASTExpression)
      (body : List ASTStatement)
  | conditional (condition : ASTExpression) (thenBranch : ASTStatement)
      (elseBranch : Option ASTStatement)
  | compound (statements : List ASTStatement)
end

/-! ## Evaluator state (`solver.rs`) -/

/-- One lexical scope: `HashMap<String, f64>` as an association list. -/
abbrev Scope := List (String × ℚ)

/-- First-match association lookup (`HashMap::get`). -/
def Scope.find : Scope → String → Option ℚ
  | [], _ => none
  | (k, v) :: rest, id => if k = id then some v else Scope.find rest id

/-- The function table maps a name to the declaration's parameter list and
body (`HashMap<String, ASTFunctionStatement>`). -/
abbrev FunctionTable := List (String × (List ASTExpression × List ASTStatement))

def FunctionTable.find : FunctionTable → String → Option (List ASTExpression × List ASTStatement)
  | [], _ => none
  | (k, v) :: rest, id => if k = id then some v else FunctionTable.find rest id

/-- The `ASTSolver` struct: accumulator register, scope stack (innermost
first, see the file header) and function table. -/
structure ASTSolver where
  result : Option ℚ
  scopes : List Scope
  functions : FunctionTable

/-- `ASTSolver::new`: one empty base scope, unset accumulator, empty table. -/
def ASTSolver.new : ASTSolver := ⟨none, [[]], []⟩

/-- `get_identifier_in_scope`: walk the scopes from innermost to outermost
(`solver.rs` lines 55-62; the source iterates the Vec with `.rev()`, our list
is already innermost-first). -/
def getIdentifierInScope : List Scope → String → Option ℚ
  | [], _ => none
  | s :: rest, id =>
    match Scope.find s id with
    | some v => some v
    | none => getIdentifierInScope rest id

/-- `add_identifier_to_scope` (`solver.rs` lines 39-44): insert into the
innermost scope; `none` models the `last_mut().unwrap()` panic on an empty
scope stack. -/
def addIdentifierToScope (scopes : List Scope) (id : String) (v : ℚ) : Option (List Scope) :=
  match scopes with
  | [] => none
  | s :: rest => some (((id, v) :: s) :: rest)

/-- Truncation of a rational toward zero, the `f64 as i64` cast (for values
in the i64 range; saturation and NaN are never exercised by the claims). -/
def ratTruncToInt (q : ℚ) : Int := Int.tdiv q.num (q.den : Int)

/-- Binary arithmetic dispatch of `visit_binary_expression`
(`solver.rs` lines 127-132). -/
def applyBinaryOperator (op : ASTBinaryOperatorKind) (a b : ℚ) : ℚ :=
  match op with
  | .plus => a + b
  | .minus => a - b
  | .multiply => a * b
  | .divide => a / b

/-- Unary dispatch of `visit_unary_expression` (`solver.rs` lines 117-120).
The source `match` has arms only for `BitwiseNOT` and `LogicNot`; numeric
negation has no arm, rendered as `none` (the caller turns it into `panic`).
`(x as i64).not()` is two's-complement bitwise NOT, i.e. `-(x+1)`. -/
def applyUnaryOperator (op : ASTUnaryOperatorKind) (v : ℚ) : Option ℚ :=
  match op with
  | .bitwiseNot => some ((-(ratTruncToInt v + 1) : Int) : ℚ)
  | .logicNot => some (if v = 0 then 1 else 0)
  | .minus => none

/-- Parameter-name extraction in `visit_function_call_expression`
(`solver.rs` lines 95-100): a `Variable` parameter yields its identifier,
anything else hits `todo!()` (rendered `none`, the caller panics). -/
def parameterName : ASTExpression → Option String
  | .var id => some id
  | _ => none

/-- Outcome of one evaluator traversal: the updated solver, a panic, or fuel
exhaustion. -/
inductive SolveOut where
  | ok (st : ASTSolver)
  | panic
  | nofuel

/-- Outcome of evaluating a call's argument list: updated solver plus the
freshly built call scope. -/
inductive ArgsOut where
  | ok (st : ASTSolver) (args : Scope)
  | panic
  | nofuel

mutual
/-- The solver's statement visitor (`impl ASTVisitor for ASTSolver` plus the
`do_visit_statement` dispatch of `mod.rs` lines 39-48).  `conditional` and
`compound` have no variant in the `ASTStatementKind` the solver visits and
therefore no visiting code: rendered `panic`. -/
def visitStatement : Nat → ASTSolver → ASTStatement → SolveOut
  | 0, _, _ => .nofuel
  | fuel+1, st, stmt =>
    match stmt with
    | .expression e => visitExpression fuel st e
    | .returnStatement e =>
      -- visit_return_statement (solver.rs 66-68): just evaluates the expression
      visitExpression fuel st e
    | .letStatement id init =>
      -- visit_let_statement (solver.rs 69-72)
      match visitExpression fuel st init with
      | .ok st1 =>
        match st1.result with
        | some v =>
          match addIdentifierToScope st1.scopes id v with
          | some scopes2 => .ok { st1 with scopes := scopes2 }
          | none => .panic
        | none => .panic
      | o => o
    | .functionStatement id params body =>
      -- visit_funtion_statement (solver.rs 74-79): insert into the table,
      -- then bind the name to 0.0 in the current scope
      let st1 : ASTSolver := { st with functions := (id, (params, body)) :: st.functions }
      match addIdentifierToScope st1.scopes id 0 with
      | some scopes2 => .ok { st1 with scopes := scopes2 }
      | none => .panic
    | .conditional _ _ _ => .panic
    | .compound _ => .panic
termination_by structural fuel _ _ => fuel

/-- The solver's expression visitor (`do_visit_expression` of `mod.rs` lines
50-61 plus the solver's methods).  `stringLiteral` is `todo!()` in the
dispatcher and `assignment` has no variant/visiting code: both `panic`. -/
def visitExpression : Nat → ASTSolver → ASTExpression → SolveOut
  | 0, _, _ => .nofuel
  | fuel+1, st, e =>
    match e with
    | .integerLiteral i => .ok { st with result := some (i : ℚ) }
    | .floatingLiteral q => .ok { st with result := some q }
    | .stringLiteral _ => .panic
    | .var id =>
      -- visit_variable_expression (solver.rs 110-113): the accumulator
      -- becomes the lookup result, possibly none; no panic here
      .ok { st with result := getIdentifierInScope st.scopes id }
    | .binary op l r =>
      -- visit_binary_expression (solver.rs 122-133): left, unwrap, right,
      -- unwrap, combine
      match visitExpression fuel st l with
      | .ok st1 =>
        match st1.result with
        | some a =>
          match visitExpression fuel st1 r with
          | .ok st2 =>
            match st2.result with
            | some b => .ok { st2 with result := some (applyBinaryOperator op a b) }
            | none => .panic
          | o => o
        | none => .panic
      | o => o
    | .unary op inner =>
      -- visit_unary_expression (solver.rs 115-121)
      match visitExpression fuel st inner with
      | .ok st1 =>
        match st1.result with
        | some v =>
          match applyUnaryOperator op v with
          | some w => .ok { st1 with result := some w }
          | none => .panic
        | none => .panic
      | o => o
    | .parenthesized inner =>
      -- visit_parenthesised_expression (solver.rs 135-137)
      visitExpression fuel st inner
    | .functionCall id args =>
      -- visit_function_call_expression (solver.rs 81-108).  The opening
      -- `if !self.check_identifier_in_scope(..) {}` has an empty body and is
      -- a no-op.  The table lookup is followed by `.unwrap()`: panic when
      -- the name is absent.  Arguments are zipped positionally with the
      -- declaration's parameters, evaluated left to right in the caller's
      -- state, collected into one fresh scope which is pushed; the body
      -- statements run in order; the scope is popped afterwards.
      match FunctionTable.find st.functions id with
      | none => .panic
      | some (params, body) =>
        match visitArguments fuel st (args.zip params) [] with
        | .ok st1 callScope =>
          match visitStatements fuel { st1 with scopes := callScope :: st1.scopes } body with
          | .ok st2 => .ok { st2 with scopes := st2.scopes.tail }
          | o => o
        | .panic => .panic
        | .nofuel => .nofuel
    | .assignment _ _ => .panic
    | .error =>
      -- visit_error default (mod.rs line 88): empty body, the accumulator is
      -- left untouched
      .ok st
termination_by structural fuel _ _ => fuel

/-- Evaluation of the zipped (argument expression, parameter) pairs of a
call (the `for` loop of `solver.rs` lines 93-102), accumulating the fresh
call scope.  `self.result.unwrap()` after each argument: panic on `none`. -/
def visitArguments : Nat → ASTSolver → List (ASTExpression × ASTExpression) → Scope → ArgsOut
  | 0, _, _, _ => .nofuel
  | _+1, st, [], acc => .ok st acc
  | fuel+1, st, (argExpr, param) :: rest, acc =>
    match visitExpression fuel st argExpr with
    | .ok st1 =>
      match st1.result with
      | some v =>
        match parameterName param with
        | some name => visitArguments fuel st1 rest ((name, v) :: acc)
        | none => .panic
      | none => .panic
    | .panic => .panic
    | .nofuel => .nofuel
termination_by structural fuel _ _ _ => fuel

/-- Statement-sequence traversal (`Ast::visit` of `mod.rs` lines 25-29, also
the body loop of `visit_function_call_expression`). -/
def visitStatements : Nat → ASTSolver → List ASTStatement → SolveOut
  | 0, _, _ => .nofuel
  | _+1, st, [] => .ok st
  | fuel+1, st, s :: rest =>
    match visitStatement fuel st s with
    | .ok st1 => visitStatements fuel st1 rest
    | o => o
termination_by structural fuel _ _ => fuel
end

/-- Whether an outcome is the panic outcome. -/
def SolveOut.isPanic : SolveOut → Bool
  | .panic => true
  | _ => false

/-- The accumulator of an `ok` outcome. -/
def SolveOut.resultOf : SolveOut → Option (Option ℚ)
  | .ok st => some st.result
  | _ => none

/-- Lookup of an identifier in the final scopes of an `ok` outcome. -/
def SolveOut.finalLookup (o : SolveOut) (id : String) : Option ℚ :=
  match o with
  | .ok st => getIdentifierInScope st.scopes id
  | _ => none

/-- Running a parsed unit from a fresh solver (`ASTSolver::new` then
`Ast::visit`). -/
def runProgram (fuel : Nat) (prog : List ASTStatement) : SolveOut :=
  visitStatements fuel ASTSolver.new prog

/-! ## Parser (`parser.rs`)

The parser state is the immutable (filtered) token vector plus a cursor.
`peek(offset)` clamps `cursor + offset` to the last index
(`parser.rs` lines 97-103); a negative sum wraps around `usize` and is also
clamped to the last index.  `consume` always advances the cursor and returns
the token that was at the old cursor position.  (For an empty token vector
the source would panic on `len() - 1` underflow; every claim uses a
nonempty, Eof-terminated stream, modelled here by `List.getD` with an Eof
default.)  Each parsing function can recurse without consuming input — the
cursor clamp keeps `current_token` at Eof forever once the cursor passes the
end — so the embedding drives the mutual recursion with fuel. -/

/-- The token at a raw index, clamped to the last index (`peek`). -/
def getTokenAt (T : List Token) (idx : Nat) : Token :=
  T.getD (min idx (T.length - 1)) ⟨TokenKind.eof, ""⟩

/-- `self.peek(offset)`: `(cursor as isize + offset) as usize` wraps a
negative sum to a huge unsigned value, which the `min` clamps to the last
index. -/
def peekToken (T : List Token) (cursor : Nat) (offset : Int) : Token :=
  if (cursor : Int) + offset < 0 then getTokenAt T (T.length - 1)
  else getTokenAt T ((cursor : Int) + offset).toNat

/-- Outcome of a parsing function: a value plus the advanced cursor, a
panic, or fuel exhaustion. -/
inductive ParseOut (α : Type) where
  | ok (a : α) (cursor : Nat)
  | panic
  | nofuel

/-- `parse_binary_operator` (`parser.rs` lines 325-352) restricted to the
four operator kinds that exist in `ASTBinaryOperatorKind` (`mod.rs`); it
peeks at the given token without consuming.  The source file also names
comparison/bitwise/logical kinds, but those have no variant in the AST
operator enum of `mod.rs`, no precedence, and no evaluator arm; their tokens
are covered by `TokenKind.other`, for which the dispatch returns `none`. -/
def parseBinaryOperator (t : Token) : Option ASTBinaryOperatorKind :=
  match t.kind with
  | .plus => some .plus
  | .minus => some .minus
  | .astrisk => some .multiply
  | .slash => some .divide
  | _ => none

/-- `parse_unary_operator` (`parser.rs` lines 354-368): peeks at the given
token without consuming. -/
def parseUnaryOperator (t : Token) : Option ASTUnaryOperatorKind :=
  match t.kind with
  | .tilde => some .bitwiseNot
  | .exclemationMark => some .logicNot
  | .minus => some .minus
  | _ => none

mutual
/-- `next_statement` (`parser.rs` lines 75-80): `none` exactly when the
current token is Eof, otherwise one parsed statement. -/
def parseNextStatement (T : List Token) : Nat → Nat → ParseOut (Option ASTStatement)
  | 0, _ => .nofuel
  | fuel+1, c =>
    if (getTokenAt T c).kind = TokenKind.eof then .ok none c
    else
      match parseStatement T fuel c with
      | .ok s c1 => .ok (some s) c1
      | .panic => .panic
      | .nofuel => .nofuel

/-- `parse_statement` dispatch (`parser.rs` lines 82-91). -/
def parseStatement (T : List Token) : Nat → Nat → ParseOut ASTStatement
  | 0, _ => .nofuel
  | fuel+1, c =>
    match (getTokenAt T c).kind with
    | .letKw => parseLetStatement T fuel c
    | .returnKw => parseReturnStatement T fuel c
    | .funcKw => parseFunctionStatement T fuel c
    | .ifKw => parseConditionalStatement T fuel c
    | .leftBrace => parseCompoundStatement T fuel c
    | _ => parseExpressionStatement T fuel c
termination_by structural fuel _ => fuel

/-- `parse_expression_statement` (`parser.rs` lines 215-218). -/
def parseExpressionStatement (T : List Token) : Nat → Nat → ParseOut ASTStatement
  | 0, _ => .nofuel
  | fuel+1, c =>
    match parseExpression T fuel c with
    | .ok e c1 => .ok (.expression e) c1
    | .panic => .panic
    | .nofuel => .nofuel

/-- `parse_let_statement` (`parser.rs` lines 126-132): consume `let`, the
identifier, `=`, then the initializer expression. -/
def parseLetStatement (T : List Token) : Nat → Nat → ParseOut ASTStatement
  | 0, _ => .nofuel
  | fuel+1, c =>
    let identifier := getTokenAt T (c+1)
    match parseExpression T fuel (c+3) with
    | .ok e c1 => .ok (.letStatement identifier.literal e) c1
    | .panic => .panic
    | .nofuel => .nofuel

/-- `parse_return_statement` (`parser.rs` lines 120-124). -/
def parseReturnStatement (T : List Token) : Nat → Nat → ParseOut ASTStatement
  | 0, _ => .nofuel
  | fuel+1, c =>
    match parseExpression T fuel (c+1) with
    | .ok e c1 => .ok (.returnStatement e) c1
    | .panic => .panic
    | .nofuel => .nofuel

/-- `parse_compound_statement` (`parser.rs` lines 134-143): consume `{`,
loop until the current token is `}`, consume `}`. -/
def parseCompoundStatement (T : List Token) : Nat → Nat → ParseOut ASTStatement
  | 0, _ => .nofuel
  | fuel+1, c =>
    match parseCompoundLoop T fuel (c+1) [] with
    | .ok stmts c1 => .ok (.compound stmts) (c1+1)
    | .panic => .panic
    | .nofuel => .nofuel
termination_by structural fuel _ => fuel

/-- The `while self.current_token().kind != TokenKind::RightBrace` loop of
`parse_compound_statement`. -/
def parseCompoundLoop (T : List Token) : Nat → Nat → List ASTStatement →
    ParseOut (List ASTStatement)
  | 0, _, _ => .nofuel
  | fuel+1, c, acc =>
    if (getTokenAt T c).kind = TokenKind.rightBrace then .ok acc c
    else
      match parseStatement T fuel c with
      | .ok s c1 => parseCompoundLoop T fuel c1 (acc ++ [s])
      | .panic => .panic
      | .nofuel => .nofuel
termination_by structural fuel _ _ => fuel

/-- `parse_function_statement` (`parser.rs` lines 145-190): `func`, name,
`(`, parameter list (with the leading-comma diagnostic consuming one token),
`)`, then a compound body.  The declaration stores its parameters as
variable expressions (the shape `visit_function_call_expression` matches on)
and the compound statement as the body sequence. -/
def parseFunctionStatement (T : List Token) : Nat → Nat → ParseOut ASTStatement
  | 0, _ => .nofuel
  | fuel+1, c =>
    let identifier := getTokenAt T (c+1)
    let c1 := c+3
    let c2 := if (getTokenAt T c1).kind = TokenKind.comma then c1+1 else c1
    match parseParametersLoop T fuel c2 [] with
    | .ok params c3 =>
      match parseCompoundStatement T fuel (c3+1) with
      | .ok body c4 => .ok (.functionStatement identifier.literal params [body]) c4
      | .panic => .panic
      | .nofuel => .nofuel
    | .panic => .panic
    | .nofuel => .nofuel
termination_by structural fuel _ => fuel

/-- The parameter-list loop of `parse_function_statement` (lines 158-184):
skip a stray comma with a diagnostic, take an identifier as a parameter (a
non-identifier is reported without being consumed), and on a comma directly
followed by `)` consume the comma (via `consume_expected(RightParen)`) and
stop. -/
def parseParametersLoop (T : List Token) : Nat → Nat → List ASTExpression →
    ParseOut (List ASTExpression)
  | 0, _, _ => .nofuel
  | fuel+1, c, acc =>
    if (getTokenAt T c).kind = TokenKind.rightParen then .ok acc c
    else
      let c1 := if (getTokenAt T c).kind = TokenKind.comma then c+1 else c
      let step : List ASTExpression × Nat :=
        if (getTokenAt T c1).kind = TokenKind.identifier then
          (acc ++ [ASTExpression.var (getTokenAt T c1).literal], c1+1)
        else (acc, c1)
      if (getTokenAt T step.2).kind = TokenKind.comma ∧
          (peekToken T step.2 1).kind = TokenKind.rightParen then
        .ok step.1 (step.2+1)
      else
        let c2 := if (getTokenAt T step.2).kind = TokenKind.comma then step.2+1 else step.2
        parseParametersLoop T fuel c2 step.1
termination_by structural fuel _ _ => fuel

/-- `parse_conditional_statement` (`parser.rs` lines 204-213) with
`consume_optional_else_statement` (lines 192-202). -/
def parseConditionalStatement (T : List Token) : Nat → Nat → ParseOut ASTStatement
  | 0, _ => .nofuel
  | fuel+1, c =>
    match parseExpression T fuel (c+2) with
    | .ok cond c1 =>
      match parseStatement T fuel (c1+1) with
      | .ok thenBranch c2 =>
        if (getTokenAt T c2).kind = TokenKind.elseKw then
          match parseStatement T fuel (c2+1) with
          | .ok elseBranch c3 => .ok (.conditional cond thenBranch (some elseBranch)) c3
          | .panic => .panic
          | .nofuel => .nofuel
        else .ok (.conditional cond thenBranch none) c2
      | .panic => .panic
      | .nofuel => .nofuel
    | .panic => .panic
    | .nofuel => .nofuel
termination_by structural fuel _ => fuel

/-- `parse_expression` (`parser.rs` lines 232-234). -/
def parseExpression (T : List Token) : Nat → Nat → ParseOut ASTExpression
  | 0, _ => .nofuel
  | fuel+1, c => parseAssignmentExpression T fuel c
termination_by structural fuel _ => fuel

/-- `parse_assignment_expression` (`parser.rs` lines 220-230): the
`identifier '=' expression` special case, else fall into the precedence
climber with floor 0. -/
def parseAssignmentExpression (T : List Token) : Nat → Nat → ParseOut ASTExpression
  | 0, _ => .nofuel
  | fuel+1, c =>
    if (getTokenAt T c).kind = TokenKind.identifier ∧
        (peekToken T c 1).kind = TokenKind.equal then
      match parseBinaryExpression T fuel (c+2) 0 with
      | .ok e c1 => .ok (.assignment (getTokenAt T c).literal e) c1
      | .panic => .panic
      | .nofuel => .nofuel
    else parseBinaryExpression T fuel c 0
termination_by structural fuel _ => fuel

/-- `parse_binary_expression` (`parser.rs` lines 309-323): parse a primary
expression, then the precedence-climbing operator loop. -/
def parseBinaryExpression (T : List Token) : Nat → Nat → Nat → ParseOut ASTExpression
  | 0, _, _ => .nofuel
  | fuel+1, c, prec =>
    match parsePrimaryExpression T fuel c with
    | .ok left c1 => parseBinaryLoop T fuel c1 prec left
    | .panic => .panic
    | .nofuel => .nofuel
termination_by structural fuel _ _ => fuel

/-- The `while let Some(operator) = self.parse_binary_operator()` loop of
`parse_binary_expression`: strictly greater precedence consumes the operator
and recurses with that precedence as the new floor (left associativity for
equal precedence). -/
def parseBinaryLoop (T : List Token) : Nat → Nat → Nat → ASTExpression →
    ParseOut ASTExpression
  | 0, _, _, _ => .nofuel
  | fuel+1, c, prec, left =>
    match parseBinaryOperator (getTokenAt T c) with
    | none => .ok left c
    | some op =>
      if op.precedence > prec then
        match parseBinaryExpression T fuel (c+1) op.precedence with
        | .ok right c1 => parseBinaryLoop T fuel c1 prec (.binary op left right)
        | .panic => .panic
        | .nofuel => .nofuel
      else .ok left c
termination_by structural fuel _ _ _ => fuel

/-- `parse_primary_expression` (`parser.rs` lines 273-302): consume one
token and dispatch on it; an unexpected token is reported and becomes an
Error node. -/
def parsePrimaryExpression (T : List Token) : Nat → Nat → ParseOut ASTExpression
  | 0, _ => .nofuel
  | fuel+1, c =>
    let token := getTokenAt T c
    match token.kind with
    | .integer i => .ok (.integerLiteral i) (c+1)
    | .floating q => .ok (.floatingLiteral q) (c+1)
    | .identifier =>
      if (getTokenAt T (c+1)).kind = TokenKind.leftParen then
        parseFunctionCallExpression T fuel (c+1)
      else .ok (.var token.literal) (c+1)
    | .leftParen =>
      match parseBinaryExpression T fuel (c+1) 0 with
      | .ok e c1 => .ok (.parenthesized e) (c1+1)
      | .panic => .panic
      | .nofuel => .nofuel
    | .tilde => parseUnaryExpression T fuel (c+1)
    | .minus => parseUnaryExpression T fuel (c+1)
    | .exclemationMark => parseUnaryExpression T fuel (c+1)
    | _ => .ok .error (c+1)
termination_by structural fuel _ => fuel

/-- `parse_unary_expression` (`parser.rs` lines 304-308).  It is entered
after `parse_primary_expression` has already consumed the operator token, so
`parse_unary_operator` peeks at the token after the operator; the
`.unwrap()` panics whenever that following token is not itself a unary
operator token. -/
def parseUnaryExpression (T : List Token) : Nat → Nat → ParseOut ASTExpression
  | 0, _ => .nofuel
  | fuel+1, c =>
    match parseUnaryOperator (getTokenAt T c) with
    | none => .panic
    | some op =>
      match parsePrimaryExpression T fuel c with
      | .ok e c1 => .ok (.unary op e) c1
      | .panic => .panic
      | .nofuel => .nofuel
termination_by structural fuel _ => fuel

/-- `parse_function_call_expression` (`parser.rs` lines 265-271): entered
with the cursor on `(`; the callee name is `peek(-1)`, the `(` is consumed,
then the argument list and the closing `)`. -/
def parseFunctionCallExpression (T : List Token) : Nat → Nat → ParseOut ASTExpression
  | 0, _ => .nofuel
  | fuel+1, c =>
    let identifier := peekToken T c (-1)
    match parseArgumentsList T fuel (c+1) with
    | .ok args c1 => .ok (.functionCall identifier.literal args) (c1+1)
    | .panic => .panic
    | .nofuel => .nofuel
termination_by structural fuel _ => fuel

/-- `parse_arguments_list` (`parser.rs` lines 236-263): the leading-comma
diagnostic consumes one token, then the argument loop runs. -/
def parseArgumentsList (T : List Token) : Nat → Nat → ParseOut (List ASTExpression)
  | 0, _ => .nofuel
  | fuel+1, c =>
    let c1 := if (getTokenAt T c).kind = TokenKind.comma then c+1 else c
    parseArgumentsLoop T fuel c1 []
termination_by structural fuel _ => fuel

/-- The `while self.current_token().kind != TokenKind::RightParen` loop of
`parse_arguments_list`: skip a doubled comma with a diagnostic, parse one
argument expression, and on a comma directly followed by `)` consume the
comma (via `consume_expected(RightParen)`) and stop. -/
def parseArgumentsLoop (T : List Token) : Nat → Nat → List ASTExpression →
    ParseOut (List ASTExpression)
  | 0, _, _ => .nofuel
  | fuel+1, c, acc =>
    if (getTokenAt T c).kind = TokenKind.rightParen then .ok acc c
    else
      let c1 := if (getTokenAt T c).kind = TokenKind.comma then c+1 else c
      match parseExpression T fuel c1 with
      | .ok arg c2 =>
        if (getTokenAt T c2).kind = TokenKind.comma ∧
            (peekToken T c2 1).kind = TokenKind.rightParen then
          .ok (acc ++ [arg]) (c2+1)
        else
          let c3 := if (getTokenAt T c2).kind = TokenKind.comma then c2+1 else c2
          parseArgumentsLoop T fuel c3 (acc ++ [arg])
      | .panic => .panic
      | .nofuel => .nofuel
termination_by structural fuel _ _ => fuel
end

/-- Whether a parse outcome is the panic outcome. -/
def ParseOut.isPanic {a : Type} : ParseOut a → Bool
  | .panic => true
  | _ => false

/-- Parse one statement from cursor 0 and evaluate it with a fresh solver,
returning the final accumulator (`none` on any parse failure, evaluation
panic or fuel exhaustion). -/
def parseEvalStatement (T : List Token) (fuel : Nat) : Option ℚ :=
  match parseNextStatement T fuel 0 with
  | .ok (some s) _ =>
    match visitStatement fuel ASTSolver.new s with
    | .ok st => st.result
    | _ => none
  | _ => none

/-! ## Concrete token streams and programs named by the claims -/

/-- Token with empty literal text (the literal only matters for
identifiers). -/
def tok (k : TokenKind) : Token := ⟨k, ""⟩

/-- Identifier token with the given name. -/
def idTok (s : String) : Token := ⟨TokenKind.identifier, s⟩

/-- The filtered token stream of `"-2 * 3"`. -/
def tokensNeg2Times3 : List Token :=
  [tok TokenKind.minus, tok (TokenKind.integer 2), tok TokenKind.astrisk,
   tok (TokenKind.integer 3), tok TokenKind.eof]

/-- The filtered token stream of `"{"`: an input that ends inside an
unclosed compound block. -/
def tokensUnclosedBrace : List Token := [tok TokenKind.leftBrace, tok TokenKind.eof]

/-- The parsed tree of `func f() { return 1; 2 } f()`: a function body with
a statement after the Return. -/
def programReturnThenMore : List ASTStatement :=
  [.functionStatement "f" [] [.returnStatement (.integerLiteral 1),
      .expression (.integerLiteral 2)],
   .expression (.functionCall "f" [])]

/-- The parsed tree of `let x = 1; func f(x) { return x; } f(9)`. -/
def programShadowing : List ASTStatement :=
  [.letStatement "x" (.integerLiteral 1),
   .functionStatement "f" [.var "x"] [.returnStatement (.var "x")],
   .expression (.functionCall "f" [.integerLiteral 9])]

/-- A solver state whose table has one function `f(a) { return a; }`, for
exercising calls with mismatched arity. -/
def solverWithF : ASTSolver :=
  { ASTSolver.new with
    functions := [("f", ([ASTExpression.var "a"],
      [ASTStatement.returnStatement (ASTExpression.var "a")]))] }


/-! ## The re-run refinement relation (claim C9)

Re-visiting a tree leaves the first run's top-level bindings in the base
scope and its declarations in the function table.  The second run is related
to the first pointwise: identical scope stacks except for a refined
(superset) base scope, a refined function table, and an accumulator that
agrees wherever the first run's accumulator is set. -/

/-- Base-scope refinement: every binding visible in `b1` is visible
unchanged in `b2`. -/
def scopeSub (b1 b2 : Scope) : Prop :=
  ∀ k v, Scope.find b1 k = some v → Scope.find b2 k = some v

/-- Function-table refinement, pointwise like `scopeSub`. -/
def tableSub (f1 f2 : FunctionTable) : Prop :=
  ∀ k d, FunctionTable.find f1 k = some d → FunctionTable.find f2 k = some d

/-- The simulation relation for re-running a program on the same solver. -/
def solverRel (s1 s2 : ASTSolver) : Prop :=
  (∃ common b1 b2, s1.scopes = common ++ [b1] ∧ s2.scopes = common ++ [b2] ∧ scopeSub b1 b2) ∧
  tableSub s1.functions s2.functions ∧
  (s1.result = s2.result ∨ s1.result = none)


/-! ## The reference grammar of arithmetic expressions (claim C1)

The claim-side definition of "a syntactically valid arithmetic expression
with the standard operator-precedence result": sums of products of atoms,
with the additive and multiplicative operators folding left to right (left
associativity) and products bound before sums (multiplicative operators
binding tighter).  `toks` is the token stream of a phrase, `ast` the tree
the parser is expected to build, `den` the standard denotation. -/

inductive AddOp where
  | plus
  | minus
deriving DecidableEq, Repr

inductive MulOp where
  | times
  | div
deriving DecidableEq, Repr

/-- The AST operator kind of an additive operator. -/
def AddOp.kind : AddOp → ASTBinaryOperatorKind
  | .plus => .plus
  | .minus => .minus

/-- The AST operator kind of a multiplicative operator. -/
def MulOp.kind : MulOp → ASTBinaryOperatorKind
  | .times => .multiply
  | .div => .divide

/-- The token of an additive operator. -/
def AddOp.token : AddOp → Token
  | .plus => tok TokenKind.plus
  | .minus => tok TokenKind.minus

/-- The token of a multiplicative operator. -/
def MulOp.token : MulOp → Token
  | .times => tok TokenKind.astrisk
  | .div => tok TokenKind.slash

mutual
inductive ArithSum where
  | mk (first : ArithProd) (rest : ArithSumTail)

inductive ArithSumTail where
  | nil
  | cons (op : AddOp) (p : ArithProd) (rest : ArithSumTail)

inductive ArithProd where
  | mk (first : ArithAtom) (rest : ArithProdTail)

inductive ArithProdTail where
  | nil
  | cons (op : MulOp) (a : ArithAtom) (rest : ArithProdTail)

inductive ArithAtom where
  | int (i : Int)
  | float (q : ℚ)
  | paren (s : ArithSum)
end

mutual
/-- Token stream of a sum phrase. -/
def ArithSum.toks : ArithSum → List Token
  | .mk p t => p.toks ++ t.toks

/-- Token stream of the additive continuation of a sum phrase. -/
def ArithSumTail.toks : ArithSumTail → List Token
  | .nil => []
  | .cons op p rest => op.token :: (p.toks ++ rest.toks)

/-- Token stream of a product phrase. -/
def ArithProd.toks : ArithProd → List Token
  | .mk a t => a.toks ++ t.toks

/-- Token stream of the multiplicative continuation of a product phrase. -/
def ArithProdTail.toks : ArithProdTail → List Token
  | .nil => []
  | .cons op a rest => op.token :: (a.toks ++ rest.toks)

/-- Token stream of an atom. -/
def ArithAtom.toks : ArithAtom → List Token
  | .int i => [tok (TokenKind.integer i)]
  | .float q => [tok (TokenKind.floating q)]
  | .paren s => tok TokenKind.leftParen :: (s.toks ++ [tok TokenKind.rightParen])
end

mutual
/-- The tree the parser is expected to build for a sum phrase. -/
def ArithSum.ast : ArithSum → ASTExpression
  | .mk p t => t.fold p.ast

/-- Left fold of the additive continuation onto an accumulated left tree. -/
def ArithSumTail.fold : ArithSumTail → ASTExpression → ASTExpression
  | .nil, left => left
  | .cons op p rest, left => rest.fold (.binary op.kind left p.ast)

/-- The tree for a product phrase. -/
def ArithProd.ast : ArithProd → ASTExpression
  | .mk a t => t.fold a.ast

/-- Left fold of the multiplicative continuation. -/
def ArithProdTail.fold : ArithProdTail → ASTExpression → ASTExpression
  | .nil, left => left
  | .cons op a rest, left => rest.fold (.binary op.kind left a.ast)

/-- The tree for an atom. -/
def ArithAtom.ast : ArithAtom → ASTExpression
  | .int i => .integerLiteral i
  | .float q => .floatingLiteral q
  | .paren s => .parenthesized s.ast
end

mutual
/-- Standard denotation of a sum phrase: products first, then a
left-to-right fold of the additive operators. -/
def ArithSum.den : ArithSum → ℚ
  | .mk p t => t.den p.den

/-- Left fold of the additive continuation onto an accumulated value. -/
def ArithSumTail.den : ArithSumTail → ℚ → ℚ
  | .nil, acc => acc
  | .cons op p rest, acc => rest.den (applyBinaryOperator op.kind acc p.den)

/-- Standard denotation of a product phrase. -/
def ArithProd.den : ArithProd → ℚ
  | .mk a t => t.den a.den

/-- Left fold of the multiplicative continuation onto an accumulated value. -/
def ArithProdTail.den : ArithProdTail → ℚ → ℚ
  | .nil, acc => acc
  | .cons op a rest, acc => rest.den (applyBinaryOperator op.kind acc a.den)

/-- Standard denotation of an atom. -/
def ArithAtom.den : ArithAtom → ℚ
  | .int i => (i : ℚ)
  | .float q => q
  | .paren s => s.den
end

/-- Structural value of a pure-arithmetic AST (literals, the four binary
operators, parentheses); `none` on any other node. -/
def aval : ASTExpression → Option ℚ
  | .integerLiteral i => some (i : ℚ)
  | .floatingLiteral q => some q
  | .binary op l r =>
    match aval l, aval r with
    | some a, some b => some (applyBinaryOperator op a b)
    | _, _ => none
  | .parenthesized e => aval e
  | _ => none

/-- The filtered token stream of `"1 + 2 * 3"`. -/
def tokens1Plus2Times3 : List Token :=
  [tok (TokenKind.integer 1), tok TokenKind.plus, tok (TokenKind.integer 2),
   tok TokenKind.astrisk, tok (TokenKind.integer 3), tok TokenKind.eof]

/-- The filtered token stream of `"(1 + 2) * 3"`. -/
def tokensParen1Plus2Times3 : List Token :=
  [tok TokenKind.leftParen, tok (TokenKind.integer 1), tok TokenKind.plus,
   tok (TokenKind.integer 2), tok TokenKind.rightParen, tok TokenKind.astrisk,
   tok (TokenKind.integer 3), tok TokenKind.eof]

/-- The filtered token stream of `"10 - 3 - 2"`. -/
def tokens10Minus3Minus2 : List Token :=
  [tok (TokenKind.integer 10), tok TokenKind.minus, tok (TokenKind.integer 3),
   tok TokenKind.minus, tok (TokenKind.integer 2), tok TokenKind.eof]

/-- The grammar term of `"1 + 2 * 3"`. -/
def sum1Plus2Times3 : ArithSum :=
  .mk (.mk (.int 1) .nil)
    (.cons .plus (.mk (.int 2) (.cons .times (.int 3) .nil)) .nil)

/-- The grammar term of `"(1 + 2) * 3"`. -/
def sumParen1Plus2Times3 : ArithSum :=
  .mk (.mk (.paren (.mk (.mk (.int 1) .nil) (.cons .plus (.mk (.int 2) .nil) .nil)))
    (.cons .times (.int 3) .nil)) .nil

/-- The grammar term of `"10 - 3 - 2"`. -/
def sum10Minus3Minus2 : ArithSum :=
  .mk (.mk (.int 10) .nil)
    (.cons .minus (.mk (.int 3) .nil) (.cons .minus (.mk (.int 2) .nil) .nil))

/-- The precedence-climbing loop at floor `floor` stops at this token:
either it is not a binary-operator token, or its precedence does not exceed
the floor. -/
def stopsAt (t : Token) (floor : Nat) : Prop :=
  ∀ op, parseBinaryOperator t = some op → op.precedence ≤ floor


end LiftCompiler



namespace LiftCompiler

/-! ## Theorems

First the shared helper lemmas, then one theorem per claim (with its
witness or counterexample where required). -/

/-! ### Claim C3 -/

/-- Claim C3: the evaluator is claimed to turn a read of an unbound
identifier or a call of an undeclared function into a distinguishable fault
and never into a silent zero or a crash, with variable lookup walking the
scopes from innermost to outermost.  The variable half is true (an unbound
read leaves the accumulator unset and panics nowhere, and lookup prefers the
innermost binding), but calling an undeclared function hits
`functions.get(..).unwrap()` and panics: the claim fails on the code. -/
theorem c3_undeclared_function_call_panics :
    SolveOut.isPanic (visitExpression 10 ASTSolver.new (.functionCall "g" [])) = true ∧
    visitExpression 10 ASTSolver.new (.var "y") = .ok ASTSolver.new ∧
    getIdentifierInScope [[("x", 2)], [("x", 1)]] "x" = some 2 :=
  ⟨rfl, rfl, rfl⟩

/-! ### Claim C4 -/

/-- Claim C4: visiting an Error node is claimed never to lead to a panic,
with an enclosing expression observing the "no value" outcome.  Visiting the
Error node itself is indeed a no-op (first conjunct), but the accumulator is
left unset, and an enclosing binary expression `unwrap`s it: evaluating
`Binary(+, Error, 1)` on a fresh solver panics (second conjunct). -/
theorem c4_error_under_binary_panics :
    visitExpression 10 ASTSolver.new .error = .ok ASTSolver.new ∧
    SolveOut.isPanic
      (runProgram 30 [.expression (.binary .plus .error (.integerLiteral 1))]) = true :=
  ⟨rfl, rfl⟩

/-! ### Claim C5 -/

/-- Claim C5 counterexample: in `func f() { return 1; 2 } f()` the claim
says the Return ends the body traversal and the call yields `1.0`; the code
keeps traversing and the call yields `2.0`. -/
theorem c5_counterexample_return_not_last :
    SolveOut.resultOf (runProgram 40 programReturnThenMore) = some (some 2) ∧
    SolveOut.resultOf (runProgram 40 programReturnThenMore) ≠ some (some 1) := by
  constructor
  · rfl
  · decide

/-- Claim C5 (amended): evaluating a Return statement evaluates its
expression into the accumulator but does not end the traversal of the
enclosing function body; statements after the Return still execute, and the
call's value is the accumulator after the last body statement (so the
example body `return 1; 2` yields `2.0`). -/
theorem c5_return_is_plain_evaluation :
    (∀ fuel st e, visitStatement (fuel+1) st (.returnStatement e) = visitExpression fuel st e) ∧
    SolveOut.resultOf (runProgram 40 programReturnThenMore) = some (some 2) :=
  ⟨fun _ _ _ => rfl, rfl⟩

/-! ### Claim C7 -/

/-- Claim C7: `"-2 * 3"` is claimed to parse (unary binding tighter than
binary) and evaluate to `-6.0`.  In the code, `parse_primary_expression`
consumes the `-` and then `parse_unary_expression` calls
`parse_unary_operator().unwrap()` on the *next* token (the literal `2`),
which is not a unary operator token: the parser panics and no tree is
produced. -/
theorem c7_unary_parse_panics :
    ParseOut.isPanic (parseNextStatement tokensNeg2Times3 20 0) = true := rfl

/-! ### Claim C8 -/

/-- Claim C8: visiting a Function declaration inserts the declaration into
the function table under its name (a fresh insert shadows any previous
entry, so redeclaration silently overwrites — the `st` here is arbitrary and
may already hold an entry for `id`) and additionally binds the name to `0`
in the current scope.  The accumulator is untouched. -/
theorem c8_function_declaration (fuel : Nat) (st : ASTSolver) (id : String)
    (params : List ASTExpression) (body : List ASTStatement)
    (h : st.scopes ≠ []) :
    ∃ st1, visitStatement (fuel+1) st (.functionStatement id params body) = .ok st1 ∧
      FunctionTable.find st1.functions id = some (params, body) ∧
      getIdentifierInScope st1.scopes id = some 0 ∧
      st1.result = st.result := by
  obtain ⟨s, rest, hs⟩ : ∃ s rest, st.scopes = s :: rest := by
    cases hsc : st.scopes with
    | nil => exact absurd hsc h
    | cons s rest => exact ⟨s, rest, rfl⟩
  refine ⟨⟨st.result, ((id, 0) :: s) :: rest, (id, (params, body)) :: st.functions⟩,
    ?_, ?_, ?_, rfl⟩
  · simp [visitStatement, addIdentifierToScope, hs]
  · simp [FunctionTable.find]
  · simp [getIdentifierInScope, Scope.find]

/-- Witness for C8 at a concrete state. -/
theorem c8_function_declaration_witness :
    ∃ st1, visitStatement 1 ASTSolver.new (.functionStatement "f" [] []) = .ok st1 ∧
      FunctionTable.find st1.functions "f" = some ([], []) ∧
      getIdentifierInScope st1.scopes "f" = some 0 ∧
      st1.result = ASTSolver.new.result :=
  c8_function_declaration 0 ASTSolver.new "f" [] [] (by simp [ASTSolver.new])

/-! ### Claim C2 -/

/-- Token at any clamped position past the opening brace of the stream
`{ <eof>` is the Eof token. -/
theorem getTokenAt_unclosedBrace (c : Nat) (h : 1 ≤ c) :
    getTokenAt tokensUnclosedBrace c = tok TokenKind.eof := by
  have hmin : c ⊓ 1 = 1 := by omega
  simp [getTokenAt, tokensUnclosedBrace, hmin, tok]

/-- One round of the compound-statement loop on `{ <eof>`: with any cursor
past the brace, `parse_statement` either returns one error expression
statement advancing the cursor by exactly one, or runs out of fuel. -/
theorem parseStatement_unclosedBrace (fuel c : Nat) (h : 1 ≤ c) :
    parseStatement tokensUnclosedBrace fuel c = .ok (.expression .error) (c+1) ∨
    parseStatement tokensUnclosedBrace fuel c = .nofuel := by
  have h1 := getTokenAt_unclosedBrace c h
  have h2 := getTokenAt_unclosedBrace (c+1) (by omega)
  match fuel with
  | 0 => exact Or.inr rfl
  | 1 => right; simp [parseStatement, h1, tok, parseExpressionStatement]
  | 2 => right; simp [parseStatement, h1, tok, parseExpressionStatement, parseExpression]
  | 3 => right; simp [parseStatement, h1, tok, parseExpressionStatement, parseExpression,
      parseAssignmentExpression]
  | 4 => right; simp [parseStatement, h1, tok, parseExpressionStatement, parseExpression,
      parseAssignmentExpression, parseBinaryExpression]
  | 5 => right; simp [parseStatement, h1, tok, parseExpressionStatement, parseExpression,
      parseAssignmentExpression, parseBinaryExpression, parsePrimaryExpression]
  | (f+6) =>
    left
    simp [parseStatement, h1, h2, tok, parseExpressionStatement, parseExpression,
      parseAssignmentExpression, parseBinaryExpression, parsePrimaryExpression,
      parseBinaryLoop, parseBinaryOperator]

/-- The compound-statement loop on `{ <eof>` exhausts any amount of fuel:
the current token stays Eof (never RightBrace), so the loop cannot exit. -/
theorem parseCompoundLoop_unclosedBrace (fuel : Nat) : ∀ c acc, 1 ≤ c →
    parseCompoundLoop tokensUnclosedBrace fuel c acc = .nofuel := by
  induction fuel with
  | zero => intro c acc h; rfl
  | succ f ih =>
    intro c acc h
    have h1 := getTokenAt_unclosedBrace c h
    rw [parseCompoundLoop, h1]
    simp only [tok]
    rcases parseStatement_unclosedBrace f c h with hok | hnf
    · simp [hok, ih (c+1) (acc ++ [ASTStatement.expression .error]) (by omega)]
    · simp [hnf]

/-- Claim C2: parsing is claimed to terminate on every finite token
sequence, including one that ends inside an unclosed compound block.  On the
two-token stream `{ <eof>` the claim fails: `parse_compound_statement` never
returns, because the cursor clamp in `peek` keeps `current_token` at Eof —
which is never RightBrace — while each loop round strictly advances the
(clamped-away) cursor.  In the fuel model: for every fuel amount, parsing
the first statement exhausts the fuel instead of producing a statement. -/
theorem c2_unclosed_block_never_terminates (fuel : Nat) :
    parseNextStatement tokensUnclosedBrace fuel 0 = .nofuel := by
  match fuel with
  | 0 => rfl
  | 1 => rfl
  | 2 => rfl
  | (f+3) =>
    have hloop := parseCompoundLoop_unclosedBrace f 1 [] (le_refl 1)
    have h0 : getTokenAt tokensUnclosedBrace 0 = tok TokenKind.leftBrace := rfl
    simp [parseNextStatement, parseStatement, parseCompoundStatement, h0, tok, hloop]

/-! ### Claim C6 -/

/-- Packaged scope-stack preservation: expression evaluation and argument
evaluation leave the scope stack exactly unchanged; statement evaluation
preserves its length and its tail (only the innermost scope can change). -/
theorem scopesPreserved : ∀ fuel : Nat,
    (∀ st e st1, visitExpression fuel st e = .ok st1 → st1.scopes = st.scopes) ∧
    (∀ st s st1, visitStatement fuel st s = .ok st1 →
      st1.scopes.length = st.scopes.length ∧ st1.scopes.tail = st.scopes.tail) ∧
    (∀ st l st1, visitStatements fuel st l = .ok st1 →
      st1.scopes.length = st.scopes.length ∧ st1.scopes.tail = st.scopes.tail) ∧
    (∀ st ps acc st1 sc, visitArguments fuel st ps acc = .ok st1 sc → st1.scopes = st.scopes) := by
  intro fuel
  induction fuel with
  | zero =>
    refine ⟨?_, ?_, ?_, ?_⟩
    · intro st e st1 h; simp [visitExpression] at h
    · intro st s st1 h; simp [visitStatement] at h
    · intro st l st1 h; simp [visitStatements] at h
    · intro st ps acc st1 sc h; simp [visitArguments] at h
  | succ f ih =>
    obtain ⟨ihE, ihS, ihB, ihA⟩ := ih
    refine ⟨?_, ?_, ?_, ?_⟩
    · -- expressions
      intro st e st1 h
      cases e with
      | integerLiteral i =>
        simp only [visitExpression, SolveOut.ok.injEq] at h; subst h; rfl
      | floatingLiteral q =>
        simp only [visitExpression, SolveOut.ok.injEq] at h; subst h; rfl
      | stringLiteral s => simp [visitExpression] at h
      | var id =>
        simp only [visitExpression, SolveOut.ok.injEq] at h; subst h; rfl
      | assignment id e2 => simp [visitExpression] at h
      | error =>
        simp only [visitExpression, SolveOut.ok.injEq] at h; subst h; rfl
      | parenthesized inner =>
        simp only [visitExpression] at h
        exact ihE st inner st1 h
      | unary op inner =>
        simp only [visitExpression] at h
        cases h1 : visitExpression f st inner with
        | panic => simp only [h1] at h; simp at h
        | nofuel => simp only [h1] at h; simp at h
        | ok st2 =>
          simp only [h1] at h
          cases h2 : st2.result with
          | none => simp only [h2] at h; simp at h
          | some v =>
            simp only [h2] at h
            cases h3 : applyUnaryOperator op v with
            | none => simp only [h3] at h; simp at h
            | some w =>
              simp only [h3] at h
              simp only [SolveOut.ok.injEq] at h
              subst h
              exact ihE st inner st2 h1
      | binary op l r =>
        simp only [visitExpression] at h
        cases h1 : visitExpression f st l with
        | panic => simp only [h1] at h; simp at h
        | nofuel => simp only [h1] at h; simp at h
        | ok st2 =>
          simp only [h1] at h
          cases h2 : st2.result with
          | none => simp only [h2] at h; simp at h
          | some a =>
            simp only [h2] at h
            cases h3 : visitExpression f st2 r with
            | panic => simp only [h3] at h; simp at h
            | nofuel => simp only [h3] at h; simp at h
            | ok st3 =>
              simp only [h3] at h
              cases h4 : st3.result with
              | none => simp only [h4] at h; simp at h
              | some b =>
                simp only [h4] at h
                simp only [SolveOut.ok.injEq] at h
                subst h
                have e1 := ihE st l st2 h1
                have e2 := ihE st2 r st3 h3
                simp [e2, e1]
      | functionCall id args =>
        simp only [visitExpression] at h
        cases hf : FunctionTable.find st.functions id with
        | none => simp only [hf] at h; simp at h
        | some d =>
          obtain ⟨params, body⟩ := d
          simp only [hf] at h
          cases ha : visitArguments f st (args.zip params) [] with
          | panic => simp only [ha] at h; simp at h
          | nofuel => simp only [ha] at h; simp at h
          | ok st2 sc =>
            simp only [ha] at h
            cases hb : visitStatements f { st2 with scopes := sc :: st2.scopes } body with
            | panic => simp only [hb] at h; simp at h
            | nofuel => simp only [hb] at h; simp at h
            | ok st3 =>
              simp only [hb] at h
              simp only [SolveOut.ok.injEq] at h
              subst h
              have ea := ihA st (args.zip params) [] st2 sc ha
              have eb := ihB { st2 with scopes := sc :: st2.scopes } body st3 hb
              have : st3.scopes.tail = st2.scopes := eb.2
              simp [this, ea]
    · -- statements
      intro st s st1 h
      cases s with
      | expression e =>
        simp only [visitStatement] at h
        have := ihE st e st1 h
        exact ⟨by rw [this], by rw [this]⟩
      | returnStatement e =>
        simp only [visitStatement] at h
        have := ihE st e st1 h
        exact ⟨by rw [this], by rw [this]⟩
      | conditional c t el => simp [visitStatement] at h
      | compound l => simp [visitStatement] at h
      | letStatement id init =>
        simp only [visitStatement] at h
        cases h1 : visitExpression f st init with
        | panic => simp only [h1] at h; simp at h
        | nofuel => simp only [h1] at h; simp at h
        | ok st2 =>
          simp only [h1] at h
          cases h2 : st2.result with
          | none => simp only [h2] at h; simp at h
          | some v =>
            simp only [h2] at h
            have e1 := ihE st init st2 h1
            cases hsc : st2.scopes with
            | nil => rw [hsc] at h; simp [addIdentifierToScope] at h
            | cons sc rest =>
              simp only [hsc] at h
              simp only [addIdentifierToScope, SolveOut.ok.injEq] at h
              subst h
              rw [← e1, hsc]
              simp
      | functionStatement id params body =>
        simp only [visitStatement] at h
        cases hsc : st.scopes with
        | nil => rw [hsc] at h; simp [addIdentifierToScope] at h
        | cons sc rest =>
          simp only [hsc] at h
          simp only [addIdentifierToScope, SolveOut.ok.injEq] at h
          subst h
          simp
    · -- statement sequences
      intro st l st1 h
      cases l with
      | nil =>
        simp only [visitStatements, SolveOut.ok.injEq] at h; subst h; exact ⟨rfl, rfl⟩
      | cons s rest =>
        simp only [visitStatements] at h
        cases h1 : visitStatement f st s with
        | panic => simp only [h1] at h; simp at h
        | nofuel => simp only [h1] at h; simp at h
        | ok st2 =>
          simp only [h1] at h
          have e1 := ihS st s st2 h1
          have e2 := ihB st2 rest st1 h
          exact ⟨e2.1.trans e1.1, e2.2.trans e1.2⟩
    · -- argument lists
      intro st ps acc st1 sc h
      cases ps with
      | nil =>
        simp only [visitArguments, ArgsOut.ok.injEq] at h
        rw [← h.1]
      | cons p rest =>
        obtain ⟨argExpr, param⟩ := p
        simp only [visitArguments] at h
        cases h1 : visitExpression f st argExpr with
        | panic => simp only [h1] at h; simp at h
        | nofuel => simp only [h1] at h; simp at h
        | ok st2 =>
          simp only [h1] at h
          cases h2 : st2.result with
          | none => simp only [h2] at h; simp at h
          | some v =>
            simp only [h2] at h
            cases h3 : parameterName param with
            | none => simp only [h3] at h; simp at h
            | some name =>
              simp only [h3] at h
              have e1 := ihE st argExpr st2 h1
              have e2 := ihA st2 rest ((name, v) :: acc) st1 sc h
              exact e2.trans e1

/-- Claim C6: a function call evaluates its arguments left to right in the
caller's state, binds them positionally in one fresh scope pushed for the
body and popped on exit; consequently expression evaluation (calls included)
returns the very same scope stack it started from — same depth, every
pre-existing binding untouched (first conjunct, from `scopesPreserved`) —
and the concrete program `let x = 1; func f(x) { return x; } f(9)` yields
`9.0` while the outer `x` still reads `1.0` afterwards. -/
theorem c6_call_scope_discipline :
    (∀ fuel st e st1, visitExpression fuel st e = .ok st1 → st1.scopes = st.scopes) ∧
    SolveOut.resultOf (runProgram 40 programShadowing) = some (some 9) ∧
    SolveOut.finalLookup (runProgram 40 programShadowing) "x" = some 1 :=
  ⟨fun fuel st e st1 h => (scopesPreserved fuel).1 st e st1 h, rfl, rfl⟩

/-- Witness for C6 at a concrete evaluation. -/
theorem c6_call_scope_discipline_witness :
    visitExpression 5 ASTSolver.new (.integerLiteral 3) = .ok ⟨some 3, [[]], []⟩ ∧
    (⟨some 3, [[]], []⟩ : ASTSolver).scopes = ASTSolver.new.scopes :=
  ⟨rfl, c6_call_scope_discipline.1 5 ASTSolver.new (.integerLiteral 3) ⟨some 3, [[]], []⟩ rfl⟩

/-! ### Claim C10 -/

/-- Zipping ignores the part of the left list beyond the other's length. -/
theorem zip_take_left {α β : Type} : ∀ (l1 : List α) (l2 : List β),
    l1.zip l2 = (l1.take l2.length).zip l2
  | [], l2 => by simp
  | a :: t1, [] => by simp
  | a :: t1, b :: t2 => by
    simp only [List.zip_cons_cons, List.length_cons, List.take_succ_cons]
    rw [← zip_take_left t1 t2]

/-- Zipping ignores the part of the right list beyond the other's length. -/
theorem zip_take_right {α β : Type} : ∀ (l1 : List α) (l2 : List β),
    l1.zip l2 = l1.zip (l2.take l1.length)
  | [], l2 => by simp
  | a :: t1, [] => by simp
  | a :: t1, b :: t2 => by
    simp only [List.zip_cons_cons, List.length_cons, List.take_succ_cons]
    rw [← zip_take_right t1 t2]

/-- Every key of the call scope built by `visitArguments` comes from a
parameter of one of the evaluated (argument, parameter) pairs, or was
already in the accumulator. -/
theorem visitArguments_keys : ∀ (fuel : Nat) st ps acc st1 sc,
    visitArguments fuel st ps acc = .ok st1 sc → ∀ k, Scope.find sc k ≠ none →
    (∃ pr, pr ∈ ps ∧ parameterName pr.2 = some k) ∨ Scope.find acc k ≠ none := by
  intro fuel
  induction fuel with
  | zero => intro st ps acc st1 sc h; simp [visitArguments] at h
  | succ f ih =>
    intro st ps acc st1 sc h k hk
    cases ps with
    | nil =>
      simp only [visitArguments, ArgsOut.ok.injEq] at h
      right
      rw [h.2]
      exact hk
    | cons p rest =>
      obtain ⟨argExpr, param⟩ := p
      simp only [visitArguments] at h
      cases h1 : visitExpression f st argExpr with
      | panic => simp only [h1] at h; simp at h
      | nofuel => simp only [h1] at h; simp at h
      | ok st2 =>
        simp only [h1] at h
        cases h2 : st2.result with
        | none => simp only [h2] at h; simp at h
        | some v =>
          simp only [h2] at h
          cases h3 : parameterName param with
          | none => simp only [h3] at h; simp at h
          | some name =>
            simp only [h3] at h
            rcases ih st2 rest ((name, v) :: acc) st1 sc h k hk with hmem | hacc
            · obtain ⟨pr, hpr, hname⟩ := hmem
              exact Or.inl ⟨pr, List.mem_cons_of_mem _ hpr, hname⟩
            · by_cases hnk : name = k
              · subst hnk
                exact Or.inl ⟨(argExpr, param), List.mem_cons_self _ _, h3⟩
              · right
                simp only [Scope.find, if_neg hnk] at hacc
                exact hacc

/-- Claim C10: a call whose argument count differs from the declared
parameter count raises no arity error: the pairing is positional up to the
shorter list, surplus argument expressions are never evaluated (the whole
call evaluates exactly like the call with the argument list truncated to the
parameter count), and — when the declared parameter names are distinct — a
surplus parameter is bound by nothing in the freshly built call scope. -/
theorem c10_arity_mismatch (fuel : Nat) (st : ASTSolver) (id : String)
    (args params : List ASTExpression) (body : List ASTStatement)
    (hfind : FunctionTable.find st.functions id = some (params, body)) :
    visitExpression fuel st (.functionCall id args) =
      visitExpression fuel st (.functionCall id (args.take params.length)) ∧
    (∀ st1 sc, visitArguments fuel st (args.zip params) [] = .ok st1 sc →
      (∀ k, Scope.find sc k ≠ none →
        ∃ p, p ∈ params.take args.length ∧ parameterName p = some k) ∧
      ((params.filterMap parameterName).Nodup →
        ∀ p, p ∈ params.drop args.length → ∀ n, parameterName p = some n →
          Scope.find sc n = none)) := by
  have hz : (args.take params.length).zip params = args.zip params :=
    (zip_take_left args params).symm
  constructor
  · cases fuel with
    | zero => rfl
    | succ f => simp only [visitExpression, hfind, hz]
  · intro st1 sc h
    have keyFact : ∀ k, Scope.find sc k ≠ none →
        ∃ p, p ∈ params.take args.length ∧ parameterName p = some k := by
      intro k hk
      rcases visitArguments_keys fuel st (args.zip params) [] st1 sc h k hk with hmem | hacc
      · obtain ⟨pr, hpr, hname⟩ := hmem
        rw [zip_take_right args params] at hpr
        exact ⟨pr.2, (List.of_mem_zip hpr).2, hname⟩
      · simp [Scope.find] at hacc
    refine ⟨keyFact, ?_⟩
    intro hnd p hp n hn
    by_contra hfound
    obtain ⟨p2, hp2, hn2⟩ := keyFact n hfound
    have hsplit : params.filterMap parameterName =
        (params.take args.length).filterMap parameterName ++
        (params.drop args.length).filterMap parameterName := by
      rw [← List.filterMap_append, List.take_append_drop]
    rw [hsplit] at hnd
    have hdisj := (List.nodup_append.mp hnd).2.2
    exact hdisj (List.mem_filterMap.mpr ⟨p2, hp2, hn2⟩)
      (List.mem_filterMap.mpr ⟨p, hp, hn⟩)

/-- Witness for C10: `f(a) { return a; }` called with two arguments behaves
exactly like the call truncated to one argument and succeeds with `5.0`. -/
theorem c10_arity_mismatch_witness :
    visitExpression 20 solverWithF (.functionCall "f" [.integerLiteral 5, .integerLiteral 6]) =
      visitExpression 20 solverWithF
        (.functionCall "f" ([ASTExpression.integerLiteral 5, .integerLiteral 6].take 1)) ∧
    SolveOut.resultOf (visitExpression 20 solverWithF
      (.functionCall "f" [.integerLiteral 5, .integerLiteral 6])) = some (some 5) :=
  ⟨(c10_arity_mismatch 20 solverWithF "f" [.integerLiteral 5, .integerLiteral 6]
      [ASTExpression.var "a"] [.returnStatement (.var "a")] rfl).1, rfl⟩

/-! ### Claim C9 -/
/-! ### Claim C9 -/

theorem scopeSub_cons {b1 b2 : Scope} (h : scopeSub b1 b2) (k : String) (v : ℚ) :
    scopeSub ((k, v) :: b1) ((k, v) :: b2) := by
  intro j w hj
  simp only [Scope.find] at hj ⊢
  by_cases hk : k = j
  · simpa [hk] using hj
  · rw [if_neg hk] at hj ⊢
    exact h j w hj

theorem tableSub_cons {f1 f2 : FunctionTable}
    (h : tableSub f1 f2) (k : String) (d : List ASTExpression × List ASTStatement) :
    tableSub ((k, d) :: f1) ((k, d) :: f2) := by
  intro j e hj
  simp only [FunctionTable.find] at hj ⊢
  by_cases hk : k = j
  · simpa [hk] using hj
  · rw [if_neg hk] at hj ⊢
    exact h j e hj

/-- Lookup through a stack with a refined base: a successful lookup in the
first stack succeeds with the same value in the second. -/
theorem getIdentifierInScope_sub : ∀ (common : List Scope) {b1 b2 : Scope},
    scopeSub b1 b2 → ∀ id v, getIdentifierInScope (common ++ [b1]) id = some v →
    getIdentifierInScope (common ++ [b2]) id = some v := by
  intro common
  induction common with
  | nil =>
    intro b1 b2 hsub id v h
    simp only [List.nil_append, getIdentifierInScope] at h ⊢
    cases hf : Scope.find b1 id with
    | none => simp [hf, getIdentifierInScope] at h
    | some w =>
      simp only [hf, Option.some.injEq] at h
      subst h
      simp [hsub id w hf]
  | cons s rest ih =>
    intro b1 b2 hsub id v h
    simp only [List.cons_append, getIdentifierInScope] at h ⊢
    cases hf : Scope.find s id with
    | none =>
      simp only [hf] at h ⊢
      exact ih hsub id v h
    | some w =>
      simp only [hf] at h ⊢
      exact h

/-- Refinement is preserved by writing the same accumulator value on both
sides (or any pair agreeing per the accumulator disjunct). -/
theorem solverRel.setResult {st1 st2 : ASTSolver} (h : solverRel st1 st2)
    (r1 r2 : Option ℚ) (hr : r1 = r2 ∨ r1 = none) :
    solverRel { st1 with result := r1 } { st2 with result := r2 } :=
  ⟨h.1, h.2.1, hr⟩

/-- The packaged simulation: a run that succeeds from a state succeeds from
any refining state, with the same accumulator wherever the first run's was
set, the same call scopes, and refinement restored. -/
theorem solverSim : ∀ fuel : Nat,
    (∀ st1 st2 e st1b, solverRel st1 st2 → visitExpression fuel st1 e = .ok st1b →
      ∃ st2b, visitExpression fuel st2 e = .ok st2b ∧ solverRel st1b st2b) ∧
    (∀ st1 st2 s st1b, solverRel st1 st2 → visitStatement fuel st1 s = .ok st1b →
      ∃ st2b, visitStatement fuel st2 s = .ok st2b ∧ solverRel st1b st2b) ∧
    (∀ st1 st2 l st1b, solverRel st1 st2 → visitStatements fuel st1 l = .ok st1b →
      ∃ st2b, visitStatements fuel st2 l = .ok st2b ∧ solverRel st1b st2b) ∧
    (∀ st1 st2 ps acc st1b sc, solverRel st1 st2 → visitArguments fuel st1 ps acc = .ok st1b sc →
      ∃ st2b, visitArguments fuel st2 ps acc = .ok st2b sc ∧ solverRel st1b st2b) := by
  intro fuel
  induction fuel with
  | zero =>
    refine ⟨?_, ?_, ?_, ?_⟩
    · intro st1 st2 e st1b hrel h; simp [visitExpression] at h
    · intro st1 st2 s st1b hrel h; simp [visitStatement] at h
    · intro st1 st2 l st1b hrel h; simp [visitStatements] at h
    · intro st1 st2 ps acc st1b sc hrel h; simp [visitArguments] at h
  | succ f ih =>
    obtain ⟨ihE, ihS, ihB, ihA⟩ := ih
    refine ⟨?_, ?_, ?_, ?_⟩
    · -- expressions
      intro st1 st2 e st1b hrel h
      cases e with
      | integerLiteral i =>
        simp only [visitExpression, SolveOut.ok.injEq] at h
        subst h
        exact ⟨{ st2 with result := some (i : ℚ) }, rfl,
          hrel.setResult _ _ (Or.inl rfl)⟩
      | floatingLiteral q =>
        simp only [visitExpression, SolveOut.ok.injEq] at h
        subst h
        exact ⟨{ st2 with result := some q }, rfl, hrel.setResult _ _ (Or.inl rfl)⟩
      | stringLiteral s => simp [visitExpression] at h
      | assignment id e2 => simp [visitExpression] at h
      | error =>
        simp only [visitExpression, SolveOut.ok.injEq] at h
        subst h
        exact ⟨st2, rfl, hrel⟩
      | var id =>
        simp only [visitExpression, SolveOut.ok.injEq] at h
        subst h
        refine ⟨{ st2 with result := getIdentifierInScope st2.scopes id }, rfl,
          hrel.setResult _ _ ?_⟩
        cases hl : getIdentifierInScope st1.scopes id with
        | none => exact Or.inr rfl
        | some v =>
          left
          obtain ⟨common, b1, b2, hs1, hs2, hsub⟩ := hrel.1
          rw [hs1] at hl
          rw [hs2]
          exact (getIdentifierInScope_sub common hsub id v hl).symm
      | parenthesized inner =>
        simp only [visitExpression] at h
        obtain ⟨st2b, h2, hrel2⟩ := ihE st1 st2 inner st1b hrel h
        exact ⟨st2b, by simp only [visitExpression]; exact h2, hrel2⟩
      | unary op inner =>
        simp only [visitExpression] at h
        cases h1 : visitExpression f st1 inner with
        | panic => simp only [h1] at h; simp at h
        | nofuel => simp only [h1] at h; simp at h
        | ok st1m =>
          simp only [h1] at h
          obtain ⟨st2m, h2, hrelm⟩ := ihE st1 st2 inner st1m hrel h1
          cases hr1 : st1m.result with
          | none => simp only [hr1] at h; simp at h
          | some v =>
            simp only [hr1] at h
            have hr2 : st2m.result = some v := by
              rcases hrelm.2.2 with he | hn
              · rw [← he, hr1]
              · rw [hn] at hr1; cases hr1
            cases hop : applyUnaryOperator op v with
            | none => simp only [hop] at h; simp at h
            | some w =>
              simp only [hop, SolveOut.ok.injEq] at h
              subst h
              refine ⟨{ st2m with result := some w }, ?_, hrelm.setResult _ _ (Or.inl rfl)⟩
              simp only [visitExpression, h2, hr2, hop]
      | binary op l r =>
        simp only [visitExpression] at h
        cases h1 : visitExpression f st1 l with
        | panic => simp only [h1] at h; simp at h
        | nofuel => simp only [h1] at h; simp at h
        | ok st1m =>
          simp only [h1] at h
          obtain ⟨st2m, h2l, hrelm⟩ := ihE st1 st2 l st1m hrel h1
          cases hr1 : st1m.result with
          | none => simp only [hr1] at h; simp at h
          | some a =>
            simp only [hr1] at h
            have hr2 : st2m.result = some a := by
              rcases hrelm.2.2 with he | hn
              · rw [← he, hr1]
              · rw [hn] at hr1; cases hr1
            cases h3 : visitExpression f st1m r with
            | panic => simp only [h3] at h; simp at h
            | nofuel => simp only [h3] at h; simp at h
            | ok st1r =>
              simp only [h3] at h
              obtain ⟨st2r, h2r, hrelr⟩ := ihE st1m st2m r st1r hrelm h3
              cases hr3 : st1r.result with
              | none => simp only [hr3] at h; simp at h
              | some b =>
                simp only [hr3, SolveOut.ok.injEq] at h
                subst h
                have hr4 : st2r.result = some b := by
                  rcases hrelr.2.2 with he | hn
                  · rw [← he, hr3]
                  · rw [hn] at hr3; cases hr3
                refine ⟨{ st2r with result := some (applyBinaryOperator op a b) }, ?_,
                  hrelr.setResult _ _ (Or.inl rfl)⟩
                simp only [visitExpression, h2l, hr2, h2r, hr4]
      | functionCall id args =>
        simp only [visitExpression] at h
        cases hf : FunctionTable.find st1.functions id with
        | none => simp only [hf] at h; simp at h
        | some d =>
          obtain ⟨params, body⟩ := d
          simp only [hf] at h
          have hf2 : FunctionTable.find st2.functions id = some (params, body) :=
            hrel.2.1 id (params, body) hf
          cases ha : visitArguments f st1 (args.zip params) [] with
          | panic => simp only [ha] at h; simp at h
          | nofuel => simp only [ha] at h; simp at h
          | ok st1a sc =>
            simp only [ha] at h
            obtain ⟨st2a, ha2, hrela⟩ := ihA st1 st2 (args.zip params) [] st1a sc hrel ha
            obtain ⟨common, b1, b2, hs1, hs2, hsub⟩ := hrela.1
            have hrelPush : solverRel { st1a with scopes := sc :: st1a.scopes }
                { st2a with scopes := sc :: st2a.scopes } := by
              refine ⟨⟨sc :: common, b1, b2, ?_, ?_, hsub⟩, hrela.2.1, hrela.2.2⟩
              · simp [hs1]
              · simp [hs2]
            cases hb : visitStatements f { st1a with scopes := sc :: st1a.scopes } body with
            | panic => simp only [hb] at h; simp at h
            | nofuel => simp only [hb] at h; simp at h
            | ok st1c =>
              simp only [hb, SolveOut.ok.injEq] at h
              subst h
              obtain ⟨st2c, hb2, hrelc⟩ :=
                ihB { st1a with scopes := sc :: st1a.scopes } _ body st1c hrelPush hb
              obtain ⟨common2, bb1, bb2, hc1, hc2, hsub2⟩ := hrelc.1
              have hlen := ((scopesPreserved f).2.2.1 _ body st1c hb).1
              have hlen2 : st1c.scopes.length = (sc :: st1a.scopes).length := hlen
              cases common2 with
              | nil =>
                exfalso
                rw [hc1] at hlen2
                simp only [List.nil_append, List.length_singleton, List.length_cons,
                  List.length_append, hs1] at hlen2
                omega
              | cons hh tt =>
                refine ⟨{ st2c with scopes := st2c.scopes.tail }, ?_, ?_⟩
                · simp only [visitExpression, hf2, ha2, hb2]
                · refine ⟨⟨tt, bb1, bb2, ?_, ?_, hsub2⟩, hrelc.2.1, hrelc.2.2⟩
                  · rw [hc1]; simp
                  · rw [hc2]; simp
    · -- statements
      intro st1 st2 s st1b hrel h
      cases s with
      | expression e =>
        simp only [visitStatement] at h
        obtain ⟨st2b, h2, hrel2⟩ := ihE st1 st2 e st1b hrel h
        exact ⟨st2b, by simp only [visitStatement]; exact h2, hrel2⟩
      | returnStatement e =>
        simp only [visitStatement] at h
        obtain ⟨st2b, h2, hrel2⟩ := ihE st1 st2 e st1b hrel h
        exact ⟨st2b, by simp only [visitStatement]; exact h2, hrel2⟩
      | conditional c t el => simp [visitStatement] at h
      | compound l => simp [visitStatement] at h
      | letStatement id init =>
        simp only [visitStatement] at h
        cases h1 : visitExpression f st1 init with
        | panic => simp only [h1] at h; simp at h
        | nofuel => simp only [h1] at h; simp at h
        | ok st1m =>
          simp only [h1] at h
          obtain ⟨st2m, h2, hrelm⟩ := ihE st1 st2 init st1m hrel h1
          cases hr1 : st1m.result with
          | none => simp only [hr1] at h; simp at h
          | some v =>
            simp only [hr1] at h
            have hr2 : st2m.result = some v := by
              rcases hrelm.2.2 with he | hn
              · rw [← he, hr1]
              · rw [hn] at hr1; cases hr1
            obtain ⟨common, b1, b2, hs1, hs2, hsub⟩ := hrelm.1
            cases common with
            | nil =>
              simp only [List.nil_append] at hs1 hs2
              rw [hs1] at h
              simp only [addIdentifierToScope, SolveOut.ok.injEq] at h
              subst h
              refine ⟨{ st2m with scopes := [(id, v) :: b2] }, ?_, ?_⟩
              · simp only [visitStatement, h2, hr2, hs2, addIdentifierToScope]
              · exact ⟨⟨[], (id, v) :: b1, (id, v) :: b2, by simp, by simp,
                  scopeSub_cons hsub id v⟩, hrelm.2.1, Or.inl hr2.symm⟩
            | cons hh tt =>
              simp only [List.cons_append] at hs1 hs2
              rw [hs1] at h
              simp only [addIdentifierToScope, SolveOut.ok.injEq] at h
              subst h
              refine ⟨{ st2m with scopes := ((id, v) :: hh) :: (tt ++ [b2]) }, ?_, ?_⟩
              · simp only [visitStatement, h2, hr2, hs2, addIdentifierToScope]
              · exact ⟨⟨((id, v) :: hh) :: tt, b1, b2, by simp, by simp, hsub⟩,
                  hrelm.2.1, Or.inl hr2.symm⟩
      | functionStatement id params body =>
        simp only [visitStatement] at h
        obtain ⟨common, b1, b2, hs1, hs2, hsub⟩ := hrel.1
        cases common with
        | nil =>
          simp only [List.nil_append] at hs1 hs2
          rw [hs1] at h
          simp only [addIdentifierToScope, SolveOut.ok.injEq] at h
          subst h
          refine ⟨⟨st2.result, [(id, 0) :: b2], (id, (params, body)) :: st2.functions⟩, ?_, ?_⟩
          · simp only [visitStatement, hs2, addIdentifierToScope]
          · exact ⟨⟨[], (id, 0) :: b1, (id, 0) :: b2, by simp, by simp,
              scopeSub_cons hsub id 0⟩, tableSub_cons hrel.2.1 id (params, body), hrel.2.2⟩
        | cons hh tt =>
          simp only [List.cons_append] at hs1 hs2
          rw [hs1] at h
          simp only [addIdentifierToScope, SolveOut.ok.injEq] at h
          subst h
          refine ⟨⟨st2.result, ((id, 0) :: hh) :: (tt ++ [b2]),
            (id, (params, body)) :: st2.functions⟩, ?_, ?_⟩
          · simp only [visitStatement, hs2, addIdentifierToScope]
          · exact ⟨⟨((id, 0) :: hh) :: tt, b1, b2, by simp, by simp, hsub⟩,
              tableSub_cons hrel.2.1 id (params, body), hrel.2.2⟩
    · -- statement sequences
      intro st1 st2 l st1b hrel h
      cases l with
      | nil =>
        simp only [visitStatements, SolveOut.ok.injEq] at h
        subst h
        exact ⟨st2, rfl, hrel⟩
      | cons s rest =>
        simp only [visitStatements] at h
        cases h1 : visitStatement f st1 s with
        | panic => simp only [h1] at h; simp at h
        | nofuel => simp only [h1] at h; simp at h
        | ok st1m =>
          simp only [h1] at h
          obtain ⟨st2m, h2, hrelm⟩ := ihS st1 st2 s st1m hrel h1
          obtain ⟨st2b, h3, hrelb⟩ := ihB st1m st2m rest st1b hrelm h
          exact ⟨st2b, by simp only [visitStatements, h2]; exact h3, hrelb⟩
    · -- argument lists
      intro st1 st2 ps acc st1b sc hrel h
      cases ps with
      | nil =>
        simp only [visitArguments, ArgsOut.ok.injEq] at h
        exact ⟨st2, by simp [visitArguments, h.2], h.1 ▸ hrel⟩
      | cons p rest =>
        obtain ⟨argExpr, param⟩ := p
        simp only [visitArguments] at h
        cases h1 : visitExpression f st1 argExpr with
        | panic => simp only [h1] at h; simp at h
        | nofuel => simp only [h1] at h; simp at h
        | ok st1m =>
          simp only [h1] at h
          obtain ⟨st2m, h2, hrelm⟩ := ihE st1 st2 argExpr st1m hrel h1
          cases hr1 : st1m.result with
          | none => simp only [hr1] at h; simp at h
          | some v =>
            simp only [hr1] at h
            have hr2 : st2m.result = some v := by
              rcases hrelm.2.2 with he | hn
              · rw [← he, hr1]
              · rw [hn] at hr1; cases hr1
            cases hp : parameterName param with
            | none => simp only [hp] at h; simp at h
            | some name =>
              simp only [hp] at h
              obtain ⟨st2b, h3, hrelb⟩ := ihA st1m st2m rest ((name, v) :: acc) st1b sc hrelm h
              exact ⟨st2b, by simp only [visitArguments, h2, hr2, hp]; exact h3, hrelb⟩

/-- Claim C9: if visiting a parsed tree from a fresh solver succeeds with a
set accumulator `r`, visiting the same unchanged tree again with the same
solver instance (i.e. from the state the first visit produced) succeeds and
leaves the same `r` in the accumulator. -/
theorem c9_revisit_idempotent (prog : List ASTStatement) (fuel : Nat)
    (st1 : ASTSolver) (r : ℚ)
    (h : runProgram fuel prog = .ok st1) (hr : st1.result = some r) :
    ∃ st2, visitStatements fuel st1 prog = .ok st2 ∧ st2.result = some r := by
  have hshape := (scopesPreserved fuel).2.2.1 ASTSolver.new prog st1 h
  obtain ⟨b, hb⟩ : ∃ b, st1.scopes = [b] := by
    cases hsc : st1.scopes with
    | nil =>
      rw [hsc] at hshape
      simp [ASTSolver.new] at hshape
    | cons x xs =>
      rw [hsc] at hshape
      have hxs : xs = [] := by simpa [ASTSolver.new] using hshape.2
      exact ⟨x, by rw [hxs]⟩

  have hrel : solverRel ASTSolver.new st1 := by
    refine ⟨⟨[], [], b, by simp [ASTSolver.new], by simp [hb], ?_⟩, ?_, Or.inr rfl⟩
    · intro k v hk
      simp [Scope.find] at hk
    · intro k d hk
      simp [FunctionTable.find, ASTSolver.new] at hk
  obtain ⟨st2, h2, hrel2⟩ := (solverSim fuel).2.2.1 ASTSolver.new st1 prog st1 hrel h
  refine ⟨st2, h2, ?_⟩
  rcases hrel2.2.2 with he | hn
  · rw [← he]
    exact hr
  · rw [hn] at hr
    cases hr

/-- Witness for C9: re-running `let x = 1` from its own final state. -/
theorem c9_revisit_idempotent_witness :
    ∃ st2, visitStatements 10 (⟨some 1, [[("x", 1)]], []⟩ : ASTSolver)
      [ASTStatement.letStatement "x" (.integerLiteral 1)] = .ok st2 ∧
      st2.result = some 1 :=
  c9_revisit_idempotent [.letStatement "x" (.integerLiteral 1)] 10
    ⟨some 1, [[("x", 1)]], []⟩ 1 rfl rfl

/-! ### Claim C1 -/

mutual
/-- The parser-built tree of a sum phrase evaluates structurally to its
standard denotation. -/
theorem sum_aval_ast : ∀ s : ArithSum, aval s.ast = some s.den
  | .mk p t => sumTail_aval_fold t p.ast p.den (prod_aval_ast p)

/-- Fold version for additive continuations. -/
theorem sumTail_aval_fold : ∀ (t : ArithSumTail) (left : ASTExpression) (acc : ℚ),
    aval left = some acc → aval (t.fold left) = some (t.den acc)
  | .nil, left, acc, h => h
  | .cons op p rest, left, acc, h =>
    sumTail_aval_fold rest _ _ (by
      simp only [aval, h, prod_aval_ast p])

/-- The parser-built tree of a product phrase evaluates structurally to its
standard denotation. -/
theorem prod_aval_ast : ∀ p : ArithProd, aval p.ast = some p.den
  | .mk a t => prodTail_aval_fold t a.ast a.den (atom_aval_ast a)

/-- Fold version for multiplicative continuations. -/
theorem prodTail_aval_fold : ∀ (t : ArithProdTail) (left : ASTExpression) (acc : ℚ),
    aval left = some acc → aval (t.fold left) = some (t.den acc)
  | .nil, left, acc, h => h
  | .cons op a rest, left, acc, h =>
    prodTail_aval_fold rest _ _ (by
      simp only [aval, h, atom_aval_ast a])

/-- The parser-built tree of an atom evaluates structurally to its standard
denotation. -/
theorem atom_aval_ast : ∀ a : ArithAtom, aval a.ast = some a.den
  | .int i => rfl
  | .float q => rfl
  | .paren s => sum_aval_ast s
end

/-- A set structural value is computed by the solver, from any state and
with any sufficient fuel, into the accumulator. -/
theorem aval_eval : ∀ (e : ASTExpression) (v : ℚ), aval e = some v →
    ∃ N, ∀ fuel, N ≤ fuel → ∀ st, visitExpression fuel st e = .ok { st with result := some v }
  | .integerLiteral i, v, h => by
    simp only [aval, Option.some.injEq] at h
    subst h
    exact ⟨1, fun fuel hf st => by
      obtain ⟨f, rfl⟩ : ∃ f, fuel = f + 1 := ⟨fuel - 1, by omega⟩
      rfl⟩
  | .floatingLiteral q, v, h => by
    simp only [aval, Option.some.injEq] at h
    subst h
    exact ⟨1, fun fuel hf st => by
      obtain ⟨f, rfl⟩ : ∃ f, fuel = f + 1 := ⟨fuel - 1, by omega⟩
      rfl⟩
  | .binary op l r, v, h => by
    simp only [aval] at h
    cases hl : aval l with
    | none => rw [hl] at h; simp at h
    | some a =>
      rw [hl] at h
      cases hr : aval r with
      | none => rw [hr] at h; simp at h
      | some b =>
        rw [hr] at h
        simp only [Option.some.injEq] at h
        subst h
        obtain ⟨N1, h1⟩ := aval_eval l a hl
        obtain ⟨N2, h2⟩ := aval_eval r b hr
        refine ⟨N1 + N2 + 1, fun fuel hf st => ?_⟩
        obtain ⟨f, rfl⟩ : ∃ f, fuel = f + 1 := ⟨fuel - 1, by omega⟩
        simp only [visitExpression, h1 f (by omega) st, h2 f (by omega) { st with result := some a }]
  | .parenthesized inner, v, h => by
    simp only [aval] at h
    obtain ⟨N1, h1⟩ := aval_eval inner v h
    refine ⟨N1 + 1, fun fuel hf st => ?_⟩
    obtain ⟨f, rfl⟩ : ∃ f, fuel = f + 1 := ⟨fuel - 1, by omega⟩
    simp only [visitExpression, h1 f (by omega) st]
  | .stringLiteral s, v, h => by simp [aval] at h
  | .var id, v, h => by simp [aval] at h
  | .unary op e, v, h => by simp [aval] at h
  | .functionCall id args, v, h => by simp [aval] at h
  | .assignment id e, v, h => by simp [aval] at h
  | .error, v, h => by simp [aval] at h

/-- Reading within the suffix `T.drop c`: position `c + i` holds the suffix
element `i` when `i` is inside the suffix (the cursor clamp is inactive). -/
theorem getTokenAt_of_drop (T : List Token) (c i : Nat) (l : List Token)
    (hd : T.drop c = l) (hi : i < l.length) :
    getTokenAt T (c + i) = l.getD i (tok TokenKind.eof) := by
  have hlen : l.length = T.length - c := by rw [← hd, List.length_drop]
  have hc : c ≤ T.length := by
    by_contra hgt
    have hnil : T.drop c = [] := List.drop_eq_nil_of_le (by omega)
    rw [hnil] at hd
    rw [← hd] at hi
    simp at hi
  have hci : c + i < T.length := by omega
  have hmin : min (c + i) (T.length - 1) = c + i := by omega
  rw [getTokenAt, hmin, List.getD_eq_getElem?_getD, List.getD_eq_getElem?_getD,
    ← hd, List.getElem?_drop]
  rfl

/-- The token at the cursor is the head of the remaining suffix. -/
theorem getTokenAt_head (T : List Token) (c : Nat) (x : Token) (l : List Token)
    (hd : T.drop c = x :: l) : getTokenAt T c = x := by
  have h := getTokenAt_of_drop T c 0 (x :: l) hd (by simp)
  simpa using h

/-- Dropping one more token past a known head. -/
theorem drop_succ_of_drop_cons (T : List Token) (c : Nat) (x : Token) (l : List Token)
    (hd : T.drop c = x :: l) : T.drop (c + 1) = l := by
  have h : T.drop (c + 1) = (T.drop c).drop 1 := (List.drop_drop 1 c T).symm
  rw [h, hd]
  rfl

/-- Dropping past a known prefix of the suffix. -/
theorem drop_of_drop_append (T : List Token) (c : Nat) (l1 l2 : List Token)
    (hd : T.drop c = l1 ++ l2) : T.drop (c + l1.length) = l2 := by
  have h : T.drop (c + l1.length) = (T.drop c).drop l1.length :=
    (List.drop_drop l1.length c T).symm
  rw [h, hd, List.drop_left]

/-- `parse_binary_operator` recognises an additive operator token with
precedence 1. -/
theorem addOp_parse_token (op : AddOp) :
    parseBinaryOperator op.token = some op.kind := by
  cases op <;> rfl

theorem addOp_kind_precedence (op : AddOp) : op.kind.precedence = 1 := by
  cases op <;> rfl

/-- `parse_binary_operator` recognises a multiplicative operator token with
precedence 2. -/
theorem mulOp_parse_token (op : MulOp) :
    parseBinaryOperator op.token = some op.kind := by
  cases op <;> rfl

theorem mulOp_kind_precedence (op : MulOp) : op.kind.precedence = 2 := by
  cases op <;> rfl

/-- Every binary operator of the AST has precedence at most 2. -/
theorem precedence_le_two (op : ASTBinaryOperatorKind) : op.precedence ≤ 2 := by
  cases op <;> decide

/-- `(tok k).kind` unfolds to `k`. -/
theorem tok_kind (k : TokenKind) : (tok k).kind = k := rfl

theorem stopsAt_of_none {t : Token} (h : parseBinaryOperator t = none) (floor : Nat) :
    stopsAt t floor := by
  intro op hop
  rw [h] at hop
  cases hop

/-- The head of an additive continuation followed by a stream the loop
stops at: the loop at floor 1 stops there too (an additive operator has
precedence exactly 1), and the stream is nonempty. -/
theorem sumTail_head_stop (t : ArithSumTail) (rest : List Token) (hne : rest ≠ [])
    (h0 : parseBinaryOperator (rest.headD (tok TokenKind.eof)) = none) :
    (t.toks ++ rest) ≠ [] ∧ stopsAt ((t.toks ++ rest).headD (tok TokenKind.eof)) 1 := by
  cases t with
  | nil =>
    refine ⟨by simpa [ArithSumTail.toks] using hne, ?_⟩
    simpa [ArithSumTail.toks] using stopsAt_of_none h0 1
  | cons op p t2 =>
    refine ⟨by simp [ArithSumTail.toks], ?_⟩
    intro op2 hop2
    simp only [ArithSumTail.toks, List.cons_append, List.headD_cons] at hop2
    rw [addOp_parse_token op] at hop2
    cases hop2
    rw [addOp_kind_precedence]

mutual
/-- `parse_primary_expression` on an atom's tokens builds the atom's tree
and consumes exactly its tokens. -/
theorem atomPrimary : ∀ (a : ArithAtom) (T : List Token) (c : Nat) (rest : List Token),
    T.drop c = a.toks ++ rest → rest ≠ [] →
    ∃ N, ∀ fuel, N ≤ fuel →
      parsePrimaryExpression T fuel c = .ok a.ast (c + a.toks.length)
  | .int i, T, c, rest, hd, hne => by
    have h0 : getTokenAt T c = tok (TokenKind.integer i) :=
      getTokenAt_head T c _ _ (by simpa [ArithAtom.toks] using hd)
    refine ⟨1, fun fuel hf => ?_⟩
    obtain ⟨f, rfl⟩ : ∃ f, fuel = f + 1 := ⟨fuel - 1, by omega⟩
    simp [parsePrimaryExpression, h0, tok_kind, ArithAtom.ast, ArithAtom.toks]
  | .float q, T, c, rest, hd, hne => by
    have h0 : getTokenAt T c = tok (TokenKind.floating q) :=
      getTokenAt_head T c _ _ (by simpa [ArithAtom.toks] using hd)
    refine ⟨1, fun fuel hf => ?_⟩
    obtain ⟨f, rfl⟩ : ∃ f, fuel = f + 1 := ⟨fuel - 1, by omega⟩
    simp [parsePrimaryExpression, h0, tok_kind, ArithAtom.ast, ArithAtom.toks]
  | .paren s, T, c, rest, hd, hne => by
    have hd0 : T.drop c =
        tok TokenKind.leftParen :: (s.toks ++ (tok TokenKind.rightParen :: rest)) := by
      simpa [ArithAtom.toks, List.append_assoc] using hd
    have h0 : getTokenAt T c = tok TokenKind.leftParen := getTokenAt_head T c _ _ hd0
    have hd1 : T.drop (c + 1) = s.toks ++ (tok TokenKind.rightParen :: rest) :=
      drop_succ_of_drop_cons T c _ _ hd0
    obtain ⟨N1, h1⟩ := sumBinary0 s T (c + 1) (tok TokenKind.rightParen :: rest)
      hd1 (by simp) (by rfl)
    refine ⟨N1 + 1, fun fuel hf => ?_⟩
    obtain ⟨f, rfl⟩ : ∃ f, fuel = f + 1 := ⟨fuel - 1, by omega⟩
    simp only [parsePrimaryExpression, h0, tok_kind, h1 f (by omega)]
    have hc : c + 1 + s.toks.length + 1 = c + (ArithAtom.paren s).toks.length := by
      simp [ArithAtom.toks]
      omega
    rw [show (ArithAtom.paren s).ast = ASTExpression.parenthesized s.ast from rfl, hc]
termination_by a _ _ _ _ _ => 2 * sizeOf a
decreasing_by all_goals (simp_wf; try omega)


/-- `parse_binary_expression` at floor 2 parses exactly one atom: every
operator has precedence at most 2, so the loop stops immediately. -/
theorem atomBinary2 : ∀ (a : ArithAtom) (T : List Token) (c : Nat) (rest : List Token),
    T.drop c = a.toks ++ rest → rest ≠ [] →
    ∃ N, ∀ fuel, N ≤ fuel →
      parseBinaryExpression T fuel c 2 = .ok a.ast (c + a.toks.length)
  | a, T, c, rest, hd, hne => by
    obtain ⟨N1, h1⟩ := atomPrimary a T c rest hd hne
    refine ⟨N1 + 2, fun fuel hf => ?_⟩
    obtain ⟨f, rfl⟩ : ∃ f, fuel = f + 1 := ⟨fuel - 1, by omega⟩
    simp only [parseBinaryExpression, h1 f (by omega)]
    obtain ⟨g, rfl⟩ : ∃ g, f = g + 1 := ⟨f - 1, by omega⟩
    have hd2 : T.drop (c + a.toks.length) = rest := drop_of_drop_append T c _ _ hd
    obtain ⟨x, r2, rfl⟩ : ∃ x r2, rest = x :: r2 := by
      cases rest with
      | nil => exact absurd rfl hne
      | cons x r2 => exact ⟨x, r2, rfl⟩
    have hx : getTokenAt T (c + a.toks.length) = x := getTokenAt_head T _ x r2 hd2
    cases hop : parseBinaryOperator x with
    | none => simp [parseBinaryLoop, hx, hop]
    | some op2 =>
      have hle : op2.precedence ≤ 2 := precedence_le_two op2
      simp [parseBinaryLoop, hx, hop, Nat.not_lt.mpr hle]
termination_by a _ _ _ _ _ => 2 * sizeOf a + 1
decreasing_by all_goals (simp_wf; try omega)


/-- The loop at floor 1 folds a multiplicative continuation onto the
accumulated left tree and stops at the continuation's end. -/
theorem prodTail1 : ∀ (pt : ArithProdTail) (T : List Token) (c : Nat) (rest : List Token)
      (left : ASTExpression),
    T.drop c = pt.toks ++ rest → rest ≠ [] →
    stopsAt (rest.headD (tok TokenKind.eof)) 1 →
    ∃ N, ∀ fuel, N ≤ fuel →
      parseBinaryLoop T fuel c 1 left = .ok (pt.fold left) (c + pt.toks.length)
  | .nil, T, c, rest, left, hd, hne, hstop => by
    obtain ⟨x, r2, rfl⟩ : ∃ x r2, rest = x :: r2 := by
      cases rest with
      | nil => exact absurd rfl hne
      | cons x r2 => exact ⟨x, r2, rfl⟩
    have hx : getTokenAt T c = x := by
      apply getTokenAt_head T c x r2
      simpa [ArithProdTail.toks] using hd
    refine ⟨1, fun fuel hf => ?_⟩
    obtain ⟨f, rfl⟩ : ∃ f, fuel = f + 1 := ⟨fuel - 1, by omega⟩
    cases hop : parseBinaryOperator x with
    | none => simp [parseBinaryLoop, hx, hop, ArithProdTail.fold, ArithProdTail.toks]
    | some op2 =>
      have hle : op2.precedence ≤ 1 := hstop op2 (by simpa using hop)
      simp [parseBinaryLoop, hx, hop, Nat.not_lt.mpr hle, ArithProdTail.fold,
        ArithProdTail.toks]
  | .cons op a pt2, T, c, rest, left, hd, hne, hstop => by
    have hd0 : T.drop c = op.token :: (a.toks ++ (pt2.toks ++ rest)) := by
      simpa [ArithProdTail.toks, List.append_assoc] using hd
    have hx : getTokenAt T c = op.token := getTokenAt_head T c _ _ hd0
    have hd1 : T.drop (c + 1) = a.toks ++ (pt2.toks ++ rest) :=
      drop_succ_of_drop_cons T c _ _ hd0
    obtain ⟨N1, h1⟩ := atomBinary2 a T (c + 1) (pt2.toks ++ rest) hd1 (by simp [hne])
    have hd2 : T.drop (c + 1 + a.toks.length) = pt2.toks ++ rest :=
      drop_of_drop_append T (c + 1) _ _ hd1
    obtain ⟨N2, h2⟩ := prodTail1 pt2 T (c + 1 + a.toks.length) rest
      (.binary op.kind left a.ast) hd2 hne hstop
    refine ⟨N1 + N2 + 1, fun fuel hf => ?_⟩
    obtain ⟨f, rfl⟩ : ∃ f, fuel = f + 1 := ⟨fuel - 1, by omega⟩
    have hgt : op.kind.precedence > 1 := by rw [mulOp_kind_precedence]; omega
    simp only [parseBinaryLoop, hx, mulOp_parse_token, if_pos hgt,
      mulOp_kind_precedence, h1 f (by omega), h2 f (by omega)]
    have hc : c + 1 + a.toks.length + pt2.toks.length =
        c + (ArithProdTail.cons op a pt2).toks.length := by
      simp [ArithProdTail.toks]
      omega
    rw [show (ArithProdTail.cons op a pt2).fold left =
      pt2.fold (.binary op.kind left a.ast) from rfl, hc]
    norm_num
termination_by pt _ _ _ _ _ _ _ => 2 * sizeOf pt
decreasing_by all_goals (simp_wf; try omega)


/-- `parse_binary_expression` at floor 1 parses exactly one product. -/
theorem prodBinary1 : ∀ (p : ArithProd) (T : List Token) (c : Nat) (rest : List Token),
    T.drop c = p.toks ++ rest → rest ≠ [] →
    stopsAt (rest.headD (tok TokenKind.eof)) 1 →
    ∃ N, ∀ fuel, N ≤ fuel →
      parseBinaryExpression T fuel c 1 = .ok p.ast (c + p.toks.length)
  | .mk a pt, T, c, rest, hd, hne, hstop => by
    have hd0 : T.drop c = a.toks ++ (pt.toks ++ rest) := by
      simpa [ArithProd.toks, List.append_assoc] using hd
    obtain ⟨N1, h1⟩ := atomPrimary a T c (pt.toks ++ rest) hd0 (by simp [hne])
    have hd1 : T.drop (c + a.toks.length) = pt.toks ++ rest :=
      drop_of_drop_append T c _ _ hd0
    obtain ⟨N2, h2⟩ := prodTail1 pt T (c + a.toks.length) rest a.ast hd1 hne hstop
    refine ⟨N1 + N2 + 1, fun fuel hf => ?_⟩
    obtain ⟨f, rfl⟩ : ∃ f, fuel = f + 1 := ⟨fuel - 1, by omega⟩
    simp only [parseBinaryExpression, h1 f (by omega), h2 f (by omega)]
    have hc : c + a.toks.length + pt.toks.length = c + (ArithProd.mk a pt).toks.length := by
      simp [ArithProd.toks]
      omega
    rw [show (ArithProd.mk a pt).ast = pt.fold a.ast from rfl, hc]
termination_by p _ _ _ _ _ _ => 2 * sizeOf p
decreasing_by all_goals (simp_wf; try omega)


/-- The loop at floor 0 over a multiplicative continuation followed by an
additive continuation folds both in order. -/
theorem prodTailSumTail0 : ∀ (pt : ArithProdTail) (t : ArithSumTail) (T : List Token)
      (c : Nat) (rest : List Token) (left : ASTExpression),
    T.drop c = pt.toks ++ t.toks ++ rest → rest ≠ [] →
    parseBinaryOperator (rest.headD (tok TokenKind.eof)) = none →
    ∃ N, ∀ fuel, N ≤ fuel →
      parseBinaryLoop T fuel c 0 left =
        .ok (t.fold (pt.fold left)) (c + pt.toks.length + t.toks.length)
  | .nil, t, T, c, rest, left, hd, hne, h0 => by
    obtain ⟨N1, h1⟩ := sumTail0 t T c rest left (by simpa [ArithProdTail.toks] using hd) hne h0
    refine ⟨N1, fun fuel hf => ?_⟩
    rw [h1 fuel hf]
    have hc : c + t.toks.length = c + ArithProdTail.nil.toks.length + t.toks.length := by
      simp [ArithProdTail.toks]
    rw [show (ArithSumTail.fold t (ArithProdTail.nil.fold left)) = t.fold left from rfl, ← hc]
  | .cons op a pt2, t, T, c, rest, left, hd, hne, h0 => by
    have hd0 : T.drop c = op.token :: (a.toks ++ (pt2.toks ++ t.toks ++ rest)) := by
      simpa [ArithProdTail.toks, List.append_assoc] using hd
    have hx : getTokenAt T c = op.token := getTokenAt_head T c _ _ hd0
    have hd1 : T.drop (c + 1) = a.toks ++ (pt2.toks ++ t.toks ++ rest) :=
      drop_succ_of_drop_cons T c _ _ hd0
    obtain ⟨N1, h1⟩ := atomBinary2 a T (c + 1) (pt2.toks ++ t.toks ++ rest) hd1
      (by simp [hne])
    have hd2 : T.drop (c + 1 + a.toks.length) = pt2.toks ++ t.toks ++ rest :=
      drop_of_drop_append T (c + 1) _ _ hd1
    obtain ⟨N2, h2⟩ := prodTailSumTail0 pt2 t T (c + 1 + a.toks.length) rest
      (.binary op.kind left a.ast) hd2 hne h0
    refine ⟨N1 + N2 + 1, fun fuel hf => ?_⟩
    obtain ⟨f, rfl⟩ : ∃ f, fuel = f + 1 := ⟨fuel - 1, by omega⟩
    have hgt : op.kind.precedence > 0 := by rw [mulOp_kind_precedence]; omega
    simp only [parseBinaryLoop, hx, mulOp_parse_token, if_pos hgt,
      mulOp_kind_precedence, h1 f (by omega), h2 f (by omega)]
    have hc : c + 1 + a.toks.length + pt2.toks.length + t.toks.length =
        c + (ArithProdTail.cons op a pt2).toks.length + t.toks.length := by
      simp [ArithProdTail.toks]
      omega
    rw [show (ArithProdTail.cons op a pt2).fold left =
      pt2.fold (.binary op.kind left a.ast) from rfl, hc]
    norm_num
termination_by pt t _ _ _ _ _ _ _ => 2 * (sizeOf pt + sizeOf t) + 1
decreasing_by all_goals (simp_wf; try omega)


/-- The loop at floor 0 over an additive continuation folds it, descending
at floor 1 for each right-hand product. -/
theorem sumTail0 : ∀ (t : ArithSumTail) (T : List Token) (c : Nat) (rest : List Token)
      (left : ASTExpression),
    T.drop c = t.toks ++ rest → rest ≠ [] →
    parseBinaryOperator (rest.headD (tok TokenKind.eof)) = none →
    ∃ N, ∀ fuel, N ≤ fuel →
      parseBinaryLoop T fuel c 0 left = .ok (t.fold left) (c + t.toks.length)
  | .nil, T, c, rest, left, hd, hne, h0 => by
    obtain ⟨x, r2, rfl⟩ : ∃ x r2, rest = x :: r2 := by
      cases rest with
      | nil => exact absurd rfl hne
      | cons x r2 => exact ⟨x, r2, rfl⟩
    have hx : getTokenAt T c = x := by
      apply getTokenAt_head T c x r2
      simpa [ArithSumTail.toks] using hd
    refine ⟨1, fun fuel hf => ?_⟩
    obtain ⟨f, rfl⟩ : ∃ f, fuel = f + 1 := ⟨fuel - 1, by omega⟩
    have hxnone : parseBinaryOperator x = none := by simpa using h0
    simp [parseBinaryLoop, hx, hxnone, ArithSumTail.fold, ArithSumTail.toks]
  | .cons op p t2, T, c, rest, left, hd, hne, h0 => by
    have hd0 : T.drop c = op.token :: (p.toks ++ (t2.toks ++ rest)) := by
      simpa [ArithSumTail.toks, List.append_assoc] using hd
    have hx : getTokenAt T c = op.token := getTokenAt_head T c _ _ hd0
    have hd1 : T.drop (c + 1) = p.toks ++ (t2.toks ++ rest) :=
      drop_succ_of_drop_cons T c _ _ hd0
    obtain ⟨hne2, hstop2⟩ := sumTail_head_stop t2 rest hne h0
    obtain ⟨N1, h1⟩ := prodBinary1 p T (c + 1) (t2.toks ++ rest) hd1 hne2 hstop2
    have hd2 : T.drop (c + 1 + p.toks.length) = t2.toks ++ rest :=
      drop_of_drop_append T (c + 1) _ _ hd1
    obtain ⟨N2, h2⟩ := sumTail0 t2 T (c + 1 + p.toks.length) rest
      (.binary op.kind left p.ast) hd2 hne h0
    refine ⟨N1 + N2 + 1, fun fuel hf => ?_⟩
    obtain ⟨f, rfl⟩ : ∃ f, fuel = f + 1 := ⟨fuel - 1, by omega⟩
    have hgt : op.kind.precedence > 0 := by rw [addOp_kind_precedence]; omega
    simp only [parseBinaryLoop, hx, addOp_parse_token, if_pos hgt,
      addOp_kind_precedence, h1 f (by omega), h2 f (by omega)]
    have hc : c + 1 + p.toks.length + t2.toks.length =
        c + (ArithSumTail.cons op p t2).toks.length := by
      simp [ArithSumTail.toks]
      omega
    rw [show (ArithSumTail.cons op p t2).fold left =
      t2.fold (.binary op.kind left p.ast) from rfl, hc]
    norm_num
termination_by t _ _ _ _ _ _ _ => 2 * sizeOf t
decreasing_by all_goals (simp_wf; try omega)


/-- `parse_binary_expression` at floor 0 on a sum phrase builds the
expected left-associative tree and consumes exactly the phrase. -/
theorem sumBinary0 : ∀ (s : ArithSum) (T : List Token) (c : Nat) (rest : List Token),
    T.drop c = s.toks ++ rest → rest ≠ [] →
    parseBinaryOperator (rest.headD (tok TokenKind.eof)) = none →
    ∃ N, ∀ fuel, N ≤ fuel →
      parseBinaryExpression T fuel c 0 = .ok s.ast (c + s.toks.length)
  | .mk (.mk a pt) t, T, c, rest, hd, hne, h0 => by
    have hd0 : T.drop c = a.toks ++ (pt.toks ++ t.toks ++ rest) := by
      simpa [ArithSum.toks, ArithProd.toks, List.append_assoc] using hd
    obtain ⟨N1, h1⟩ := atomPrimary a T c (pt.toks ++ t.toks ++ rest) hd0 (by simp [hne])
    have hd1 : T.drop (c + a.toks.length) = pt.toks ++ t.toks ++ rest :=
      drop_of_drop_append T c _ _ hd0
    obtain ⟨N2, h2⟩ := prodTailSumTail0 pt t T (c + a.toks.length) rest a.ast hd1 hne h0
    refine ⟨N1 + N2 + 1, fun fuel hf => ?_⟩
    obtain ⟨f, rfl⟩ : ∃ f, fuel = f + 1 := ⟨fuel - 1, by omega⟩
    simp only [parseBinaryExpression, h1 f (by omega), h2 f (by omega)]
    have hc : c + a.toks.length + pt.toks.length + t.toks.length =
        c + (ArithSum.mk (ArithProd.mk a pt) t).toks.length := by
      simp [ArithSum.toks, ArithProd.toks]
      omega
    rw [show (ArithSum.mk (ArithProd.mk a pt) t).ast = t.fold (pt.fold a.ast) from rfl, hc]
termination_by s _ _ _ _ _ _ => 2 * sizeOf s
decreasing_by all_goals (simp_wf; try omega)
end

/-- Parsing a whole Eof-terminated arithmetic phrase as one statement and
evaluating it on a fresh solver yields the standard denotation, for every
sufficiently large fuel. -/
theorem parseEval_sum (s : ArithSum) :
    ∃ N, ∀ fuel, N ≤ fuel →
      parseEvalStatement (s.toks ++ [tok TokenKind.eof]) fuel = some s.den := by
  obtain ⟨⟨a, pt⟩, t⟩ := s
  obtain ⟨N1, h1⟩ := sumBinary0 (.mk (.mk a pt) t)
    ((ArithSum.mk (ArithProd.mk a pt) t).toks ++ [tok TokenKind.eof]) 0
    [tok TokenKind.eof] (by simp) (by simp) (by rfl)
  obtain ⟨N2, h2⟩ := aval_eval (ArithSum.mk (ArithProd.mk a pt) t).ast
    (ArithSum.mk (ArithProd.mk a pt) t).den (sum_aval_ast _)
  refine ⟨N1 + N2 + 6, fun fuel hf => ?_⟩
  obtain ⟨f, rfl⟩ : ∃ f, fuel = f + 5 := ⟨fuel - 5, by omega⟩
  have h1v := h1 f (by omega)
  have h2v := h2 (f + 4) (by omega) ASTSolver.new
  cases a with
  | int i =>
    have hdT : ((ArithSum.mk (ArithProd.mk (ArithAtom.int i) pt) t).toks ++
        [tok TokenKind.eof]).drop 0 =
        tok (TokenKind.integer i) :: (pt.toks ++ (t.toks ++ [tok TokenKind.eof])) := by
      simp [ArithSum.toks, ArithProd.toks, ArithAtom.toks, List.append_assoc]
    have h0 := getTokenAt_head _ 0 _ _ hdT
    simp [parseEvalStatement, parseNextStatement, parseStatement,
      parseExpressionStatement, parseExpression, parseAssignmentExpression,
      visitStatement, h0, tok_kind, h1v, h2v]
  | float q =>
    have hdT : ((ArithSum.mk (ArithProd.mk (ArithAtom.float q) pt) t).toks ++
        [tok TokenKind.eof]).drop 0 =
        tok (TokenKind.floating q) :: (pt.toks ++ (t.toks ++ [tok TokenKind.eof])) := by
      simp [ArithSum.toks, ArithProd.toks, ArithAtom.toks, List.append_assoc]
    have h0 := getTokenAt_head _ 0 _ _ hdT
    simp [parseEvalStatement, parseNextStatement, parseStatement,
      parseExpressionStatement, parseExpression, parseAssignmentExpression,
      visitStatement, h0, tok_kind, h1v, h2v]
  | paren s2 =>
    have hdT : ((ArithSum.mk (ArithProd.mk (ArithAtom.paren s2) pt) t).toks ++
        [tok TokenKind.eof]).drop 0 =
        tok TokenKind.leftParen :: ((s2.toks ++ (tok TokenKind.rightParen :: pt.toks)) ++
          (t.toks ++ [tok TokenKind.eof])) := by
      simp [ArithSum.toks, ArithProd.toks, ArithAtom.toks, List.append_assoc]
    have h0 := getTokenAt_head _ 0 _ _ hdT
    simp [parseEvalStatement, parseNextStatement, parseStatement,
      parseExpressionStatement, parseExpression, parseAssignmentExpression,
      visitStatement, h0, tok_kind, h1v, h2v]

/-- Claim C1: for every token stream of a syntactically valid arithmetic
expression (integer/float literals, the four arithmetic operators,
parentheses — the streams generated by the reference grammar `ArithSum`,
terminated by Eof), parsing the stream and evaluating the tree on a fresh
solver yields the standard operator-precedence result `ArithSum.den` — the
multiplicative operators bind tighter than the additive ones and equal
precedence associates to the left — and in particular `"1 + 2 * 3"` gives
`7.0`, `"(1 + 2) * 3"` gives `9.0`, and `"10 - 3 - 2"` gives `5.0` (not
`9.0`).  Fuel quantification: for every sufficiently large fuel. -/
theorem c1_standard_precedence :
    (∀ s : ArithSum, ∃ N, ∀ fuel, N ≤ fuel →
      parseEvalStatement (s.toks ++ [tok TokenKind.eof]) fuel = some s.den) ∧
    (∃ N, ∀ fuel, N ≤ fuel →
      parseEvalStatement tokens1Plus2Times3 fuel = some 7) ∧
    (∃ N, ∀ fuel, N ≤ fuel →
      parseEvalStatement tokensParen1Plus2Times3 fuel = some 9) ∧
    (∃ N, ∀ fuel, N ≤ fuel →
      parseEvalStatement tokens10Minus3Minus2 fuel = some 5) := by
  refine ⟨parseEval_sum, ?_, ?_, ?_⟩
  · obtain ⟨N, h⟩ := parseEval_sum sum1Plus2Times3
    refine ⟨N, fun fuel hf => ?_⟩
    have hv := h fuel hf
    rw [show sum1Plus2Times3.toks ++ [tok TokenKind.eof] = tokens1Plus2Times3 from rfl] at hv
    rw [hv]
    norm_num [sum1Plus2Times3, ArithSum.den, ArithProd.den, ArithSumTail.den,
      ArithProdTail.den, ArithAtom.den, applyBinaryOperator, AddOp.kind, MulOp.kind]
  · obtain ⟨N, h⟩ := parseEval_sum sumParen1Plus2Times3
    refine ⟨N, fun fuel hf => ?_⟩
    have hv := h fuel hf
    rw [show sumParen1Plus2Times3.toks ++ [tok TokenKind.eof] = tokensParen1Plus2Times3
      from rfl] at hv
    rw [hv]
    norm_num [sumParen1Plus2Times3, ArithSum.den, ArithProd.den, ArithSumTail.den,
      ArithProdTail.den, ArithAtom.den, applyBinaryOperator, AddOp.kind, MulOp.kind]
  · obtain ⟨N, h⟩ := parseEval_sum sum10Minus3Minus2
    refine ⟨N, fun fuel hf => ?_⟩
    have hv := h fuel hf
    rw [show sum10Minus3Minus2.toks ++ [tok TokenKind.eof] = tokens10Minus3Minus2
      from rfl] at hv
    rw [hv]
    norm_num [sum10Minus3Minus2, ArithSum.den, ArithProd.den, ArithSumTail.den,
      ArithProdTail.den, ArithAtom.den, applyBinaryOperator, AddOp.kind, MulOp.kind]

/-- Witness for C1: the concrete stream of `"1 + 2 * 3"` evaluates to
`7.0`. -/
theorem c1_standard_precedence_witness :
    ∃ N, ∀ fuel, N ≤ fuel →
      parseEvalStatement tokens1Plus2Times3 fuel = some 7 :=
  c1_standard_precedence.2.1

end LiftCompiler
